import Mathlib

/-!
Verification of the TestRail → Qase migration tool against its specification.

The Python sources are shallowly embedded as executable Lean definitions:

* `src/support/text_utils.py` — `fix_numbering`, `format_links_as_markdown`,
  `convert_testrail_date_to_iso`, `convert_estimate_time_to_hours`;
* `src/entities/cases.py` — the case-id safety logic of `Cases._prepare_case`
  (including a full executable MD5), `Cases._validate_custom_field_values`
  and the enum arm of `Cases._import_custom_fields_for_case`;
* `src/entities/fields.py` — `Fields._create_tr_key_to_qase_id_mapping`,
  `Fields._create_types_map`, `Fields._create_priorities_map`,
  `Fields._create_result_statuses_map`, `Fields._create_refs_field`;
* `src/support/mappings.py` — the `qase_fields_type` table.

Strings are modelled at the `List Char` level (ASCII; the inputs the tool
handles are ASCII), with `String` wrappers for the public functions.
Python's `re` scanning is modelled by explicit left-to-right scanners that
reproduce the exact alternation order and greediness of the patterns used.
-/

namespace TQMig

/-! ## Character and string helpers (Python semantics) -/

/-- Python `\s` for the ASCII range: the whitespace characters recognised by
`str.strip` and the `re` module on ASCII input. -/
def isPySpace (c : Char) : Bool :=
  c = ' ' || c = '\t' || c = '\n' || c = '\x0b' || c = '\x0c' || c = '\r'

/-- Python `\w` (word character) for the ASCII range, used for `\b`. -/
def isWordChar (c : Char) : Bool :=
  c.isAlphanum || c = '_'

/-- Right-trim: drop trailing characters satisfying `p`. -/
def rtrimBy (p : Char → Bool) (l : List Char) : List Char :=
  (l.reverse.dropWhile p).reverse

/-- Python `str.strip()` on ASCII input: drop leading and trailing whitespace. -/
def pyStripL (l : List Char) : List Char :=
  rtrimBy isPySpace (l.dropWhile isPySpace)

/-- `str.strip()` at the `String` level. -/
def pyStrip (s : String) : String :=
  String.mk (pyStripL s.data)

/-- Decimal digit character for `d < 10` (ASCII `'0'`-`'9'`). -/
def decDigitChar (d : Nat) : Char :=
  Char.ofNat (48 + d)

/-- Auxiliary decimal renderer; the fuel is an upper bound on the number of
digits. -/
def natDecCharsAux : Nat → Nat → List Char → List Char
  | 0, _, acc => acc
  | fuel + 1, n, acc =>
    if n < 10 then decDigitChar n :: acc
    else natDecCharsAux fuel (n / 10) (decDigitChar (n % 10) :: acc)

/-- Decimal rendering of a natural number, as Python `str(n)` produces for a
non-negative `int`. -/
def natDecChars (n : Nat) : List Char :=
  natDecCharsAux (n + 1) n []

/-- Decimal rendering as a `String`. -/
def natDecStr (n : Nat) : String :=
  String.mk (natDecChars n)

/-- Python `str()` of an `int` (the ids handled by the tool are
non-negative; the sign case is included for totality). -/
def intDecStr (n : Int) : String :=
  if n < 0 then String.mk ('-' :: natDecChars n.natAbs) else natDecStr n.natAbs

/-- First-match association-list lookup (Python `dict` lookup; the lists we
build have unique keys). -/
def lookupA {α β : Type} [DecidableEq α] : List (α × β) → α → Option β
  | [], _ => none
  | (k, v) :: rest, key => if key = k then some v else lookupA rest key

/-- Python `dict` insertion: update the value in place when the key exists
(keeping its position), append otherwise. -/
def upsertA {α β : Type} [DecidableEq α] : List (α × β) → α → β → List (α × β)
  | [], key, v => [(key, v)]
  | (k, w) :: rest, key, v =>
    if k = key then (k, v) :: rest else (k, w) :: upsertA rest key v

/-- ASCII lowercase of a string (Python `str.lower()` on ASCII input). -/
def lowerStr (s : String) : String :=
  String.mk (s.data.map Char.toLower)

/-! ## `text_utils.convert_testrail_tables_to_markdown`

The table converter's behavioural contract in the source is the identity
(`return text` for non-`None` input). -/

def convert_testrail_tables_to_markdown (s : String) : String := s

/-! ## `text_utils.fix_numbering`

`fix_numbering` splits on `'\n'`, renumbers each contiguous block of lines
matching `^\d+\. ` as `1..K`, and rejoins.  The two nested `while` loops of
the source are a single recursion with a counter that resets to 1 on every
non-matching line. -/

/-- Split a character list on `'\n'` (Python `text.split('\n')`: the result
is never empty, and an empty input gives `[[]]`). -/
def splitNL : List Char → List (List Char)
  | [] => [[]]
  | c :: rest =>
    if c = '\n' then [] :: splitNL rest
    else
      match splitNL rest with
      | l :: ls => (c :: l) :: ls
      | [] => [[c]]

/-- Join with `'\n'` (Python `'\n'.join(...)`). -/
def joinNL : List (List Char) → List Char
  | [] => []
  | [l] => l
  | l :: l2 :: ls => l ++ '\n' :: joinNL (l2 :: ls)

/-- Match of `re.match(r'^(\d+)\. ', line)`: a maximal non-empty run of
leading digits followed by `'.'` and `' '`; returns the remainder of the
line after the matched head. -/
def lineNumMatch (l : List Char) : Option (List Char) :=
  if l.takeWhile Char.isDigit = [] then none
  else
    match l.dropWhile Char.isDigit with
    | '.' :: ' ' :: rest => some rest
    | _ => none

/-- The renumbered line `re.sub(r'^\d+\. ', f'{k}. ', line)` given the
remainder after the matched head. -/
def numberedLine (k : Nat) (rest : List Char) : List Char :=
  natDecChars k ++ '.' :: ' ' :: rest

/-- The two nested loops of `fix_numbering`: `k` is `block_number`; it
advances inside a block of matching lines and resets to 1 on every
non-matching line. -/
def fixNumGo : Nat → List (List Char) → List (List Char)
  | _, [] => []
  | k, l :: ls =>
    match lineNumMatch l with
    | some rest => numberedLine k rest :: fixNumGo (k + 1) ls
    | none => l :: fixNumGo 1 ls

/-- `fix_numbering` on a character list. -/
def fixNumberingL (cs : List Char) : List Char :=
  joinNL (fixNumGo 1 (splitNL cs))

/-- `text_utils.fix_numbering` for a (non-`None`) string. -/
def fix_numbering (s : String) : String :=
  String.mk (fixNumberingL s.data)

/-! ## `text_utils.format_links_as_markdown`

The URL pass is
`re.sub(r'(?<!\]\()(?<!\])\b(http[s]?://[^\s]+)', r'[\1](\1)', text)`.
The scanner below reproduces `re.sub`'s left-to-right scan: at every
position it attempts the pattern; on failure it advances one character.
The look-behinds inspect the ORIGINAL text, which the scanner carries as
the reversed list of characters already passed. -/

/-- Attempt `http[s]?://[^\s]+` at the head of `cs`; on success return the
matched text and the rest of the input.  (`[s]?` never needs backtracking
here because `'s'` and `':'` differ.) -/
def tryUrl (cs : List Char) : Option (List Char × List Char) :=
  match cs with
  | 'h' :: 't' :: 't' :: 'p' :: rest =>
    let (sPart, afterS) :=
      match rest with
      | 's' :: r => ([('s' : Char)], r)
      | _ => (([] : List Char), rest)
    match afterS with
    | ':' :: '/' :: '/' :: tail =>
      let run := tail.takeWhile (fun c => !isPySpace c)
      if run = [] then none
      else some ('h' :: 't' :: 't' :: 'p' :: sPart ++ ':' :: '/' :: '/' :: run,
                 tail.dropWhile (fun c => !isPySpace c))
    | _ => none
  | _ => none

/-- The zero-width assertions `(?<!\]\()(?<!\])\b` before the `h`, applied
to the reversed list of preceding characters. -/
def lookbehindOk (prev : List Char) : Bool :=
  match prev with
  | [] => true
  | c :: rest =>
    if c = ']' then false
    else if c = '(' && rest.head? = some ']' then false
    else !isWordChar c

/-- One scan of `re.sub`: `prev` is the reversed already-scanned original
text, `fuel` bounds the number of scan steps (each step consumes at least
one character, so `fuel = length` suffices). -/
def urlSubGo : Nat → List Char → List Char → List Char
  | 0, _, cs => cs
  | fuel + 1, prev, cs =>
    match cs with
    | [] => []
    | c :: rest =>
      match tryUrl (c :: rest) with
      | some (url, after) =>
        if lookbehindOk prev then
          '[' :: url ++ ']' :: '(' :: url ++ ')' ::
            urlSubGo fuel (url.reverse ++ prev) after
        else c :: urlSubGo fuel (c :: prev) rest
      | none => c :: urlSubGo fuel (c :: prev) rest

/-- The URL pass on a character list. -/
def urlSubL (cs : List Char) : List Char :=
  urlSubGo cs.length [] cs

/-- `text_utils.format_links_as_markdown` for a (non-`None`) string:
table pass (identity), then `fix_numbering`, then the URL pass. -/
def format_links_as_markdown (s : String) : String :=
  String.mk (urlSubL (fixNumberingL (convert_testrail_tables_to_markdown s).data))

/-! ## `text_utils.convert_estimate_time_to_hours`

The source tokenises with
`re.findall(r'(\d+(?:\.\d+)?)\s*(wk|week|d|day|hr|hour|h|min|minute|m|sec|second)s?', e, re.IGNORECASE)`
and then simplifies the token list.  A captured number is an exact decimal
`num / den` (`den` a power of ten); `math.ceil` of such a value, and of
`hours + minutes / 60`, is computed exactly here (the source goes through
`float`, which cannot change the ceiling on the decimals this regex
produces in practice). -/

/-- One captured `(number, unit)` pair.  `unit` is the captured unit
alternative, lowercased (the source only ever uses `matches[i][1].lower()`). -/
structure EstTok where
  num : Nat
  den : Nat
  unit : String
  deriving DecidableEq, Repr

/-- The unit alternatives in the pattern's order.  `re` alternation takes
the first alternative that matches, so `day`, `minute` and `second` are
shadowed by their own leading substrings `d`, `min` and `sec`. -/
def estUnitAlts : List String :=
  ["wk", "week", "d", "day", "hr", "hour", "h", "min", "minute", "m", "sec", "second"]

/-- Case-insensitive match of candidate `u` at the head of `cs`. -/
def ciMatchesAt (u : List Char) (cs : List Char) : Bool :=
  match u, cs with
  | [], _ => true
  | _ :: _, [] => false
  | a :: us, c :: rest => a = c.toLower && ciMatchesAt us rest

/-- First unit alternative matching (case-insensitively) at the head of
`cs`; returns the alternative and the rest of the input. -/
def tryEstUnit (cs : List Char) : Option (String × List Char) :=
  (estUnitAlts.find? (fun u => ciMatchesAt u.data cs)).map
    (fun u => (u, cs.drop u.data.length))

/-- Attempt the full pattern at the head of `cs`: digits, optional
`.digits`, optional whitespace, a unit, an optional (case-insensitive)
trailing `s`.  On failure `re` re-attempts one character further on. -/
def tryEstTok (cs : List Char) : Option (EstTok × List Char) :=
  let ds := cs.takeWhile Char.isDigit
  if ds = [] then none
  else
    let r1 := cs.dropWhile Char.isDigit
    let (fds, r2) :=
      match r1 with
      | '.' :: r =>
        let f := r.takeWhile Char.isDigit
        if f = [] then (([] : List Char), r1) else (f, r.dropWhile Char.isDigit)
      | _ => (([] : List Char), r1)
    let r3 := r2.dropWhile isPySpace
    match tryEstUnit r3 with
    | none => none
    | some (u, r4) =>
      let r5 :=
        match r4 with
        | c :: r => if c.toLower = 's' then r else r4
        | [] => r4
      let dv := ds.foldl (fun a c => a * 10 + (c.toNat - 48)) 0
      let fv := fds.foldl (fun a c => a * 10 + (c.toNat - 48)) 0
      some (⟨dv * 10 ^ fds.length + fv, 10 ^ fds.length, u⟩, r5)

/-- The `re.findall` scan: attempt at every position, restart one character
further on failure.  `fuel` bounds the scan steps (`length` suffices). -/
def estTokens : Nat → List Char → List EstTok
  | 0, _ => []
  | _, [] => []
  | fuel + 1, c :: rest =>
    match tryEstTok (c :: rest) with
    | some (tok, after) => tok :: estTokens fuel after
    | none => estTokens fuel rest

/-- `math.ceil` of the exact value of a token (`num / den`, `den > 0`). -/
def ceilTok (t : EstTok) : Nat :=
  (t.num + t.den - 1) / t.den

/-- `math.ceil (hours + minutes / 60)` computed exactly on the two decimal
values. -/
def ceilSumHM (h m : EstTok) : Nat :=
  let n := h.num * (m.den * 60) + m.num * h.den
  let d := h.den * (m.den * 60)
  (n + d - 1) / d

/-- A pluralised part, `f"{v} {word}{'s' if v != 1 else ''}"`. -/
def pluralWord (v : Nat) (word : String) : String :=
  natDecStr v ++ " " ++ word ++ (if v = 1 then "" else "s")

def isDayU (u : String) : Bool := u = "d" || u = "day"
def isHourU (u : String) : Bool := u = "hr" || u = "hour" || u = "h"
def isMinU (u : String) : Bool := u = "min" || u = "minute" || u = "m"

/-- The full word for a unit token (the source's `if/elif` chain). -/
def estUnitWord (u : String) : Option String :=
  if u = "wk" || u = "week" then some "week"
  else if isDayU u then some "day"
  else if isHourU u then some "hour"
  else if isMinU u then some "minute"
  else if u = "sec" || u = "second" then some "second"
  else none

/-- The source's plain per-token loop: ceil each value, skip zeros, render
the full word. -/
def estRegularParts (ts : List EstTok) : List String :=
  ts.filterMap (fun t =>
    let v := ceilTok t
    if v = 0 then none else (estUnitWord t.unit).map (pluralWord v))

/-- Python `' '.join`. -/
def joinSpace (ps : List String) : String :=
  String.intercalate " " ps

/-- The two-token stage of the simplifier (`first_two_units` of length 2):
hours+minutes and days+hours are handled specially, anything else goes
through the plain loop; an empty part list falls back to the (stripped)
input. -/
def estTwoCase (fb : String) (t1 t2 : EstTok) : String :=
  let parts :=
    if isHourU t1.unit && isMinU t2.unit then
      let h := ceilTok t1
      let m := ceilTok t2
      (if 0 < h then [pluralWord h "hour"] else []) ++
        (if 0 < m then [pluralWord m "minute"] else [])
    else if isDayU t1.unit && isHourU t2.unit then
      let d := ceilTok t1
      let hh := ceilTok t2
      (if 0 < d then [pluralWord d "day"] else []) ++
        (if 0 < hh then [pluralWord hh "hour"] else [])
    else estRegularParts [t1, t2]
  if parts = [] then fb else joinSpace parts

/-- The simplifier over the token list: with at least three tokens shaped
days/hours/minutes, hours and minutes are summed into hours and ceiled;
otherwise only the first two tokens are used. -/
def simplifyEst (fb : String) (ms : List EstTok) : String :=
  match ms with
  | [] => fb
  | [t1] =>
    let parts := estRegularParts [t1]
    if parts = [] then fb else joinSpace parts
  | [t1, t2] => estTwoCase fb t1 t2
  | t1 :: t2 :: t3 :: _ =>
    if isDayU t1.unit && isHourU t2.unit && isMinU t3.unit then
      let d := ceilTok t1
      let hh := ceilSumHM t2 t3
      let parts :=
        (if 0 < d then [pluralWord d "day"] else []) ++
          (if 0 < hh then [pluralWord hh "hour"] else [])
      if parts = [] then fb else joinSpace parts
    else estTwoCase fb t1 t2

/-- `text_utils.convert_estimate_time_to_hours` on a string input: empty
input is returned as-is, otherwise the input is stripped; a stripped-empty
or unparseable input falls back to the stripped string. -/
def convert_estimate_time_to_hours (s : String) : String :=
  if s = "" then s
  else
    let t := pyStrip s
    if t = "" then t
    else simplifyEst t (estTokens t.data.length t.data)

/-! ## `text_utils.convert_testrail_date_to_iso`

`datetime.strptime` is attempted for the six formats in order; the first
success is rendered as `YYYY-MM-DD 00:00:00`, and total failure returns the
stripped string (the source reassigns `date_string` before the loop, so the
final `return date_string` returns the stripped value).  The `%m`/`%d`
patterns of
CPython's `_strptime` (`1[0-2]|0[1-9]|[1-9]` and
`3[01]|[12]\d|0[1-9]|[1-9]`) are reproduced; with `/'`-separated formats no
cross-token backtracking can occur, so the greedy first-alternative parse
below is exact.  `%Y` is exactly four digits, `%y` exactly two (mapped to
2000–2068 / 1969–1999), and `datetime` validates the day against the month
length. -/

def digitVal (c : Char) : Nat := c.toNat - 48

/-- Parse `%m` (`1[0-2]|0[1-9]|[1-9]`): value and remaining input. -/
def parseMonth2 : List Char → Option (Nat × List Char)
  | '1' :: c :: rest =>
    if '0' ≤ c && c ≤ '2' then some (10 + digitVal c, rest)
    else some (1, c :: rest)
  | '0' :: c :: rest =>
    if '1' ≤ c && c ≤ '9' then some (digitVal c, rest) else none
  | c :: rest =>
    if '1' ≤ c && c ≤ '9' then some (digitVal c, rest) else none
  | [] => none

/-- Parse `%d` (`3[01]|[12]\d|0[1-9]|[1-9]`). -/
def parseDay2 : List Char → Option (Nat × List Char)
  | '3' :: c :: rest =>
    if c = '0' || c = '1' then some (30 + digitVal c, rest)
    else some (3, c :: rest)
  | '0' :: c :: rest =>
    if '1' ≤ c && c ≤ '9' then some (digitVal c, rest) else none
  | c :: rest =>
    if c.isDigit then
      if c = '1' || c = '2' then
        match rest with
        | d :: rest2 =>
          if d.isDigit then some (digitVal c * 10 + digitVal d, rest2)
          else if c = '0' then none else some (digitVal c, rest)
        | [] => if c = '0' then none else some (digitVal c, rest)
      else if c = '0' then none else some (digitVal c, rest)
    else none
  | [] => none

/-- Parse exactly `n` digits. -/
def parseDigitsExact : Nat → List Char → Option (Nat × List Char)
  | 0, cs => some (0, cs)
  | n + 1, c :: rest =>
    if c.isDigit then
      (parseDigitsExact n rest).map (fun p => (digitVal c * 10 ^ n + p.1, p.2))
    else none
  | _ + 1, [] => none

/-- Gregorian leap year, as `datetime` uses. -/
def isLeapYear (y : Nat) : Bool :=
  y % 4 = 0 && (y % 100 ≠ 0 || y % 400 = 0)

/-- Days in a month (`datetime` validation). -/
def daysInMonth (y m : Nat) : Nat :=
  if m = 2 then (if isLeapYear y then 29 else 28)
  else if m = 4 || m = 6 || m = 9 || m = 11 then 30
  else 31

/-- A parsed calendar date accepted by `datetime` (year 1–9999, valid day). -/
def validDate (y m d : Nat) : Bool :=
  1 ≤ y && y ≤ 9999 && 1 ≤ d && d ≤ daysInMonth y m

/-- The `%y` two-digit-year pivot used by `_strptime`. -/
def expandYear2 (y : Nat) : Nat :=
  if y ≤ 68 then 2000 + y else 1900 + y

/-- The field order of a format: month-first, day-first, or year-first. -/
inductive DateFmt
  | mdY | mdy | dmY | dmy | Ymd_dash | Ymd_slash
  deriving DecidableEq, Repr

/-- The six formats in the source's order. -/
def dateFormats : List DateFmt :=
  [.mdY, .mdy, .dmY, .dmy, .Ymd_dash, .Ymd_slash]

/-- Expect a literal separator. -/
def expectChar (c : Char) : List Char → Option (List Char)
  | x :: rest => if x = c then some rest else none
  | [] => none

/-- `strptime(s, fmt)` for one of the six formats: full match required,
then `datetime` range validation.  Returns `(year, month, day)`. -/
def strptimeOne (fmt : DateFmt) (cs : List Char) : Option (Nat × Nat × Nat) :=
  let tail3 : Option (Nat × Nat × Nat) :=
    match fmt with
    | .mdY => do
      let (m, r1) ← parseMonth2 cs
      let r2 ← expectChar '/' r1
      let (d, r3) ← parseDay2 r2
      let r4 ← expectChar '/' r3
      let (y, r5) ← parseDigitsExact 4 r4
      if r5 = [] then some (y, m, d) else none
    | .mdy => do
      let (m, r1) ← parseMonth2 cs
      let r2 ← expectChar '/' r1
      let (d, r3) ← parseDay2 r2
      let r4 ← expectChar '/' r3
      let (y, r5) ← parseDigitsExact 2 r4
      if r5 = [] then some (expandYear2 y, m, d) else none
    | .dmY => do
      let (d, r1) ← parseDay2 cs
      let r2 ← expectChar '/' r1
      let (m, r3) ← parseMonth2 r2
      let r4 ← expectChar '/' r3
      let (y, r5) ← parseDigitsExact 4 r4
      if r5 = [] then some (y, m, d) else none
    | .dmy => do
      let (d, r1) ← parseDay2 cs
      let r2 ← expectChar '/' r1
      let (m, r3) ← parseMonth2 r2
      let r4 ← expectChar '/' r3
      let (y, r5) ← parseDigitsExact 2 r4
      if r5 = [] then some (expandYear2 y, m, d) else none
    | .Ymd_dash => do
      let (y, r1) ← parseDigitsExact 4 cs
      let r2 ← expectChar '-' r1
      let (m, r3) ← parseMonth2 r2
      let r4 ← expectChar '-' r3
      let (d, r5) ← parseDay2 r4
      if r5 = [] then some (y, m, d) else none
    | .Ymd_slash => do
      let (y, r1) ← parseDigitsExact 4 cs
      let r2 ← expectChar '/' r1
      let (m, r3) ← parseMonth2 r2
      let r4 ← expectChar '/' r3
      let (d, r5) ← parseDay2 r4
      if r5 = [] then some (y, m, d) else none
  match tail3 with
  | some (y, m, d) => if validDate y m d then some (y, m, d) else none
  | none => none

/-- Zero-padded decimal rendering of width (at least) `w`. -/
def padNum (w n : Nat) : String :=
  let ds := natDecChars n
  String.mk (List.replicate (w - ds.length) '0' ++ ds)

/-- `parsed_date.strftime('%Y-%m-%d %H:%M:%S')` with the time 00:00:00. -/
def renderIsoDate (y m d : Nat) : String :=
  padNum 4 y ++ "-" ++ padNum 2 m ++ "-" ++ padNum 2 d ++ " 00:00:00"

/-- `text_utils.convert_testrail_date_to_iso` on a string input: empty
input returned as-is; otherwise strip, try the six formats in order, and
fall back to the stripped string. -/
def convert_testrail_date_to_iso (s : String) : String :=
  if s = "" then s
  else
    let t := pyStrip s
    match dateFormats.firstM (fun fmt => strptimeOne fmt t.data) with
    | some (y, m, d) => renderIsoDate y m d
    | none => t

/-! ## Dynamic-input wrappers (guard clauses of the four public functions)

`None` and non-string inputs are modelled by a small dynamic-value type;
`other` stands for any non-`None`, non-string Python value, which only the
`isinstance` guards inspect. -/

inductive PyText
  | none
  | str (s : String)
  | other
  deriving DecidableEq, Repr

/-- `format_links_as_markdown` with its `if text is None: return None`
guard. -/
def format_links_as_markdown_opt : Option String → Option String
  | Option.none => Option.none
  | Option.some s => Option.some (format_links_as_markdown s)

/-- `fix_numbering` with its `None` guard. -/
def fix_numbering_opt : Option String → Option String
  | Option.none => Option.none
  | Option.some s => Option.some (fix_numbering s)

/-- `convert_testrail_date_to_iso` with its
`if not date_string or not isinstance(date_string, str)` guard. -/
def convert_testrail_date_to_iso_py : PyText → PyText
  | .str s => .str (convert_testrail_date_to_iso s)
  | v => v

/-- `convert_estimate_time_to_hours` with the same guard shape. -/
def convert_estimate_time_to_hours_py : PyText → PyText
  | .str s => .str (convert_estimate_time_to_hours s)
  | v => v

/-! ## MD5 (RFC 1321), as `hashlib.md5` computes it

`Cases._prepare_case` hashes oversize ids with
`int(hashlib.md5(str(original_id).encode()).hexdigest()[:8], 16)`.
The digest's first eight hex digits are its first four bytes, i.e. the
little-endian bytes of the final `A` state word.  All 32-bit words are
naturals reduced mod `2^32`. -/

def m32 : Nat := 2 ^ 32

def add32 (a b : Nat) : Nat := (a + b) % m32

/-- Bitwise complement within 32 bits (arguments are `< 2^32`). -/
def not32 (a : Nat) : Nat := (m32 - 1) - a

/-- Left rotation of a 32-bit word by `n` (`0 < n < 32` in the tables). -/
def rotl32 (x n : Nat) : Nat :=
  ((x % 2 ^ (32 - n)) * 2 ^ n) + x / 2 ^ (32 - n)

/-- Per-operation sine-derived constants `K[i] = floor(|sin(i+1)| * 2^32)`. -/
def md5K : List Nat :=
[ 3614090360, 3905402710, 606105819, 3250441966, 4118548399, 1200080426, 2821735955, 4249261313,
  1770035416, 2336552879, 4294925233, 2304563134, 1804603682, 4254626195, 2792965006, 1236535329,
  4129170786, 3225465664, 643717713, 3921069994, 3593408605, 38016083, 3634488961, 3889429448,
  568446438, 3275163606, 4107603335, 1163531501, 2850285829, 4243563512, 1735328473, 2368359562,
  4294588738, 2272392833, 1839030562, 4259657740, 2763975236, 1272893353, 4139469664, 3200236656,
  681279174, 3936430074, 3572445317, 76029189, 3654602809, 3873151461, 530742520, 3299628645,
  4096336452, 1126891415, 2878612391, 4237533241, 1700485571, 2399980690, 4293915773, 2240044497,
  1873313359, 4264355552, 2734768916, 1309151649, 4149444226, 3174756917, 718787259, 3951481745 ]

/-- Per-operation left-rotation amounts. -/
def md5S : List Nat :=
[ 7, 12, 17, 22, 7, 12, 17, 22, 7, 12, 17, 22, 7, 12, 17, 22,
  5, 9, 14, 20, 5, 9, 14, 20, 5, 9, 14, 20, 5, 9, 14, 20,
  4, 11, 16, 23, 4, 11, 16, 23, 4, 11, 16, 23, 4, 11, 16, 23,
  6, 10, 15, 21, 6, 10, 15, 21, 6, 10, 15, 21, 6, 10, 15, 21 ]

structure MD5State where
  a : Nat
  b : Nat
  c : Nat
  d : Nat
  deriving DecidableEq, Repr

def md5Init : MD5State :=
  ⟨0x67452301, 0xefcdab89, 0x98badcfe, 0x10325476⟩

/-- One of the 64 operations of a block; `Mw` yields message word `g`. -/
def md5Round (Mw : Nat → Nat) (st : MD5State) (i : Nat) : MD5State :=
  let fg :=
    if i < 16 then ((st.b &&& st.c) ||| (not32 st.b &&& st.d), i)
    else if i < 32 then ((st.d &&& st.b) ||| (not32 st.d &&& st.c), (5 * i + 1) % 16)
    else if i < 48 then (st.b ^^^ st.c ^^^ st.d, (3 * i + 5) % 16)
    else (st.c ^^^ (st.b ||| not32 st.d), (7 * i) % 16)
  let f := (fg.1 + st.a + md5K.getD i 0 + Mw fg.2) % m32
  ⟨st.d, add32 st.b (rotl32 f (md5S.getD i 0)), st.b, st.c⟩

/-- Little-endian bytes of a number, width `w`. -/
def leBytes : Nat → Nat → List Nat
  | 0, _ => []
  | w + 1, n => n % 256 :: leBytes w (n / 256)

/-- Message word `g` (little-endian 32-bit) of a 64-byte block. -/
def blockWord (block : List Nat) (g : Nat) : Nat :=
  match block.drop (4 * g) with
  | b0 :: b1 :: b2 :: b3 :: _ => b0 + b1 * 256 + b2 * 65536 + b3 * 16777216
  | _ => 0

/-- Process one 64-byte block. -/
def md5Block (st : MD5State) (block : List Nat) : MD5State :=
  let r := (List.range 64).foldl (md5Round (blockWord block)) st
  ⟨add32 st.a r.a, add32 st.b r.b, add32 st.c r.c, add32 st.d r.d⟩

/-- Split into 64-byte blocks; the fuel (the list length suffices, every
step consuming at least one byte) keeps the recursion structural. -/
def chunks64Go : Nat → List Nat → List (List Nat)
  | 0, _ => []
  | _, [] => []
  | fuel + 1, b :: bs => (b :: bs).take 64 :: chunks64Go fuel ((b :: bs).drop 64)

/-- Split the padded message into 64-byte blocks. -/
def chunks64 (bs : List Nat) : List (List Nat) :=
  chunks64Go bs.length bs

/-- MD5 padding: `0x80`, zeros to 56 mod 64, then the 64-bit little-endian
bit length. -/
def md5Pad (msg : List Nat) : List Nat :=
  let padZeros := (119 - msg.length % 64) % 64
  msg ++ 0x80 :: List.replicate padZeros 0 ++ leBytes 8 ((8 * msg.length) % 2 ^ 64)

/-- The final MD5 state of a byte message. -/
def md5Final (msg : List Nat) : MD5State :=
  (chunks64 (md5Pad msg)).foldl md5Block md5Init

/-- `int(hexdigest()[:8], 16)`: the first four digest bytes — the
little-endian bytes of the final `a` word — read as a big-endian number. -/
def md5First8Hex (msg : List Nat) : Nat :=
  let a := (md5Final msg).a
  (a % 256) * 16777216 + (a / 256 % 256) * 65536 + (a / 65536 % 256) * 256 + a / 16777216

/-- ASCII bytes of a string (`str.encode()` on the ASCII strings handled
here). -/
def strBytes (cs : List Char) : List Nat :=
  cs.map Char.toNat

/-! ## `Cases._prepare_case`: target-id selection (`src/entities/cases.py`)

`MAX_SAFE_ID = 2**31 - 1`; oversize ids are hashed with
`int(md5(str(id)).hexdigest()[:8], 16) % MAX_SAFE_ID`; with
`preserve_ids` false an in-range id is regenerated as
`int(time.time() * 1000) % MAX_SAFE_ID`.  A final safety check takes a
further `% MAX_SAFE_ID` if the chosen id is still oversize, updating the
recorded mapping. -/

def MAX_SAFE_ID : Nat := 2 ^ 31 - 1

/-- The hashed id for an oversize source id. -/
def hashedCaseId (originalId : Nat) : Nat :=
  md5First8Hex (strBytes (natDecChars originalId)) % MAX_SAFE_ID

/-- `safe_id` as first chosen in `_prepare_case` (`nowMs` stands for
`int(time.time() * 1000)`). -/
def generateCaseId (preserveIds : Bool) (nowMs : Nat) (originalId : Nat) : Nat :=
  if preserveIds then
    if originalId ≤ MAX_SAFE_ID then originalId
    else hashedCaseId originalId
  else
    if originalId ≤ MAX_SAFE_ID then nowMs % MAX_SAFE_ID
    else hashedCaseId originalId

/-- The id finally recorded in `case_id_mapping[original_id]`, after the
additional safety check. -/
def recordedCaseId (preserveIds : Bool) (nowMs : Nat) (originalId : Nat) : Nat :=
  let safe := generateCaseId preserveIds nowMs originalId
  if MAX_SAFE_ID < safe then safe % MAX_SAFE_ID else safe

/-! ## Custom-field enum data (`src/entities/fields.py`, `src/entities/cases.py`)

A Python `dict` key can be an `int` (the Qase value ids stored in
`qase_values`) or a `str` (the TestRail keys); membership tests between the
two kinds never succeed, which `PKey` makes explicit. -/

inductive PKey
  | pint (n : Int)
  | pstr (s : String)
  deriving DecidableEq, Repr

/-- Python `str()` of a key. -/
def pkeyStr : PKey → String
  | .pint n => intDecStr n
  | .pstr s => s

/-- First character-position split of a line at `','`
(`line.split(',', 1)` guarded by `',' in line`). -/
def splitFirstComma (line : List Char) : Option (List Char × List Char) :=
  match line.dropWhile (fun c => c ≠ ',') with
  | ',' :: rest => some (line.takeWhile (fun c => c ≠ ','), rest)
  | _ => none

/-- Parse an `items` option string into the `{key: label}` dict built by
both `_create_tr_key_to_qase_id_mapping` and
`_validate_custom_field_values`: split on newlines, keep lines containing a
comma, strip both parts, later duplicates overwrite in place. -/
def parseItems (items : String) : List (String × String) :=
  (splitNL items.data).foldl
    (fun m line =>
      match splitFirstComma line with
      | some (k, t) => upsertA m (pyStrip (String.mk k)) (pyStrip (String.mk t))
      | none => m)
    []

/-- The core of `Fields._create_tr_key_to_qase_id_mapping`: for each parsed
`(key, label)` pair, the first `qase_values` entry whose stripped title
equals the stripped label supplies the target id; unmatched keys are left
out. -/
def trKeyMapping (items : String) (qaseValues : List (PKey × String)) :
    List (String × PKey) :=
  (parseItems items).filterMap (fun p =>
    (qaseValues.find? (fun q => pyStrip p.2 = pyStrip q.2)).map (fun q => (p.1, q.1)))

/-- One TestRail field configuration as the enum code path reads it:
`context.project_ids` (possibly `None`) and `options.items` (`''` when
absent). -/
structure CfConfig where
  projectIds : Option (List Nat)
  items : String
  deriving DecidableEq, Repr

/-- `Fields._create_tr_key_to_qase_id_mapping` (the source mutates
`field`; `none` means the early returns left no `tr_key_to_qase_id` on the
field at all). -/
def create_tr_key_to_qase_id_mapping (configs : List CfConfig)
    (qaseValues : List (PKey × String)) : Option (List (String × PKey)) :=
  match configs with
  | [] => none
  | config :: _ =>
    if config.items = "" then none
    else some (trKeyMapping config.items qaseValues)

/-! ## System enum maps (`Fields._create_types_map`, `_create_priorities_map`,
`_create_result_statuses_map`)

Each map is a dict from source id to target value; the inner loop carries
no `break`, so the LAST case-insensitive title match wins; a source entry
with no match keeps the default written before the inner loop. -/

/-- A source option (`{'id', 'name'}` for priorities/types, `{'id',
'label'}` for result statuses; the relevant text field is `label` here). -/
structure SrcOption where
  id : Nat
  label : String
  deriving DecidableEq, Repr

/-- A target system-field option (`{'id', 'title', 'slug'}`). -/
structure QaseOption where
  id : Nat
  title : String
  slug : String
  deriving DecidableEq, Repr

/-- The inner loop: start from the default, overwrite on every
case-insensitive title match. -/
def resolveByTitle {β : Type} (default : β) (pick : QaseOption → β)
    (label : String) (qs : List QaseOption) : β :=
  qs.foldl (fun acc q => if lowerStr label = lowerStr q.title then pick q else acc)
    default

/-- Dict building shared by the three maps. -/
def buildEnumMap {β : Type} (default : β) (pick : QaseOption → β)
    (trs : List SrcOption) (qs : List QaseOption) : List (Nat × β) :=
  trs.foldl (fun m tr => upsertA m tr.id (resolveByTitle default pick tr.label qs)) []

/-- `Fields._create_types_map`: fixed default 1. -/
def create_types_map (trs : List SrcOption) (qs : List QaseOption) :
    List (Nat × Nat) :=
  buildEnumMap 1 (fun q => q.id) trs qs

/-- The default priority: the id of the first target option titled
`high` (case-insensitively), 1 when there is none. -/
def findHighDefault (qs : List QaseOption) : Nat :=
  match qs.find? (fun q => lowerStr q.title = "high") with
  | some q => q.id
  | none => 1

/-- `Fields._create_priorities_map`: the default is `findHighDefault`. -/
def create_priorities_map (trs : List SrcOption) (qs : List QaseOption) :
    List (Nat × Nat) :=
  buildEnumMap (findHighDefault qs) (fun q => q.id) trs qs

/-- `Fields._create_result_statuses_map`: default `'skipped'`, matches map
to the target option's slug. -/
def create_result_statuses_map (trs : List SrcOption) (qs : List QaseOption) :
    List (Nat × String) :=
  buildEnumMap "skipped" (fun q => q.slug) trs qs

/-! ## `Fields._create_refs_field` and `Mappings.qase_fields_type` -/

/-- The target's custom-field type codes (`src/support/mappings.py`). -/
def qase_fields_type : List (String × Nat) :=
  [("number", 0), ("string", 1), ("text", 2), ("selectbox", 3), ("checkbox", 4),
   ("radio", 5), ("multiselect", 6), ("url", 7), ("user", 8), ("datetime", 9)]

/-- An already-existing target custom field, as the creation loop reads it. -/
structure ExistingField where
  id : Nat
  title : String
  deriving DecidableEq, Repr

/-- The creation payload for a synthetic field. -/
structure CreateFieldData where
  title : String
  entity : Nat
  type : Nat
  is_filterable : Bool
  is_visible : Bool
  is_required : Bool
  is_enabled_for_all_projects : Bool
  deriving DecidableEq, Repr

/-- The payload `_create_refs_field` submits when it creates the field. -/
def refsFieldData : CreateFieldData :=
  ⟨"Refs", 0, 2, true, true, false, true⟩

/-- The outcome of `_create_refs_field`. -/
inductive RefsAction
  | nothing
  | found (id : Nat)
  | created (data : CreateFieldData)
  deriving DecidableEq, Repr

/-- `Fields._create_refs_field`: only runs under `tests.refs.enable`; the
scan keeps the LAST field titled `Refs` (no `break`); `if not
self.mappings.refs_id` re-creates when the found id is 0 (falsy). -/
def create_refs_field (refsEnable : Bool) (existing : List ExistingField) :
    RefsAction :=
  if refsEnable then
    match existing.foldl
        (fun acc f => if f.title = "Refs" then some f.id else acc)
        (none : Option Nat) with
    | some id => if id = 0 then .created refsFieldData else .found id
    | none => .created refsFieldData
  else .nothing

/-! ## `Cases._validate_custom_field_values` and the enum arm of
`Cases._import_custom_fields_for_case`

Scalar case values are `str` or `int`; a field value is a scalar or a list
of scalars.  `Except Unit` distinguishes a raised exception (an
`IndexError` on an empty `configs`, caught in `_prepare_case`, which drops
the whole case) from a quietly omitted field. -/

inductive SVal
  | s (v : String)
  | i (v : Int)
  deriving DecidableEq, Repr

/-- Python `str()` of a scalar. -/
def svalStr : SVal → String
  | .s v => v
  | .i v => intDecStr v

inductive CVal
  | scalar (v : SVal)
  | list (vs : List SVal)
  deriving DecidableEq, Repr

/-- Python truthiness of a field value (`if not value`). -/
def cvalTruthy : CVal → Bool
  | .scalar (.s v) => v ≠ ""
  | .scalar (.i v) => v ≠ 0
  | .list vs => vs ≠ []

/-- A reconciled custom-field descriptor, as the import code reads it.
`tr_key_to_qase_id = []` models both an absent and an empty (falsy)
mapping; `isProjectSpecific` is the truthiness of
`custom_field.get('project_id') and custom_field.get('project_code')`. -/
structure CField where
  type_id : Nat
  qase_id : Nat
  isProjectSpecific : Bool
  configs : List CfConfig
  tr_key_to_qase_id : List (String × PKey)
  qase_values : List (PKey × String)
  deriving DecidableEq, Repr

/-- Config selection inside `_validate_custom_field_values`: a
project-specific field uses its own config list; a global field looks for
the config covering the current project and otherwise indexes `configs[0]`,
which raises on an empty list. -/
def selectConfig (cf : CField) (projTrId : Nat) : Except Unit (Option CfConfig) :=
  if cf.isProjectSpecific then
    match cf.configs with
    | [] => .ok none
    | c :: _ => .ok (some c)
  else
    match cf.configs.find?
        (fun c =>
          match c.projectIds with
          | some ids => ids.contains projTrId
          | none => false) with
    | some c => .ok (some c)
    | none =>
      match cf.configs with
      | [] => .error ()
      | c :: _ => .ok (some c)

/-- `Cases._validate_custom_field_values`: `ok none` is Python `None`
(value dropped), `ok (some vs)` a non-empty list of source-valid scalars,
`error` an uncaught `IndexError`. -/
def validateCFV (cf : CField) (projTrId : Nat) (value : CVal) :
    Except Unit (Option (List SVal)) :=
  if !cvalTruthy value then .ok none
  else
    match selectConfig cf projTrId with
    | .error e => .error e
    | .ok none => .ok none
    | .ok (some config) =>
      if config.items = "" then .ok none
      else
        let values := parseItems config.items
        match value with
        | .list vs =>
          let filtered := vs.filter (fun v => (lookupA values (svalStr v)).isSome)
          if filtered = [] then .ok none else .ok (some filtered)
        | .scalar v =>
          if (lookupA values (svalStr v)).isSome then .ok (some [v]) else .ok none

/-- Python `','.join`. -/
def joinComma (ps : List String) : String :=
  String.intercalate "," ps

/-- The enum arm (`type_id` 6 or 12) of
`Cases._import_custom_fields_for_case` for one field value: the emitted
`custom_field[str(qase_id)]` entry, or `ok none` when nothing is written.
The validated value is always a list, so the source's scalar branch is
dead; type 12 splits on the field being global or project-specific; type 6
uses the first validated element.  Unmapped keys fall back to the raw
source key except in the global type-12 path, which drops them with a
warning. -/
def importEnumValue (cf : CField) (projTrId : Nat) (raw : CVal) :
    Except Unit (Option String) :=
  match validateCFV cf projTrId raw with
  | .error e => .error e
  | .ok none => .ok none
  | .ok (some validated) =>
    if cf.type_id = 12 then
      if cf.isProjectSpecific then
        .ok (some (joinComma (validated.map (fun v =>
          let k := svalStr v
          if cf.tr_key_to_qase_id ≠ [] then
            match lookupA cf.tr_key_to_qase_id k with
            | some qid => pkeyStr qid
            | none => k
          else k))))
      else
        match validateCFV cf projTrId (.list validated) with
        | .error e => .error e
        | .ok none => .ok none
        | .ok (some vv) =>
          let qvals := vv.filterMap (fun v =>
            let k := svalStr v
            if cf.tr_key_to_qase_id ≠ [] && (lookupA cf.tr_key_to_qase_id k).isSome then
              (lookupA cf.tr_key_to_qase_id k).map pkeyStr
            else if cf.qase_values ≠ [] && (lookupA cf.qase_values (PKey.pstr k)).isSome then
              lookupA cf.qase_values (PKey.pstr k)
            else none)
          if qvals = [] then .ok none else .ok (some (joinComma qvals))
    else
      match validated with
      | [] => .error ()
      | v :: _ =>
        let k := svalStr v
        if cf.tr_key_to_qase_id ≠ [] then
          match lookupA cf.tr_key_to_qase_id k with
          | some qid => .ok (some (pkeyStr qid))
          | none => .ok (some k)
        else .ok (some k)

/-! ## Analysis predicates

These definitions support the statements of the block-renumbering and
idempotence properties; they embed no further source code. -/

/-- Head of a line list fails the numbering pattern (or the list is
empty): the condition under which a numbered block ends. -/
def headNoMatch : List (List Char) → Prop
  | [] => True
  | l :: _ => lineNumMatch l = none

/-- The renumbering `k, k+1, …` of a block of matching lines. -/
def renumberFrom : Nat → List (List Char) → List (List Char)
  | _, [] => []
  | k, l :: ls => numberedLine k ((lineNumMatch l).getD []) :: renumberFrom (k + 1) ls

/-- Four-character window check: does the text begin with `http`? -/
def startsHttp : List Char → Bool
  | a :: b :: c :: d :: _ => a = 'h' && b = 't' && c = 't' && d = 'p'
  | _ => false

/-- No suffix of the text begins with `http` — in particular the URL
pattern can match nowhere in it. -/
def noHttpL : List Char → Bool
  | [] => true
  | c :: rest => !startsHttp (c :: rest) && noHttpL rest

instance {ε α : Type} [DecidableEq ε] [DecidableEq α] : DecidableEq (Except ε α) :=
  fun x y =>
    match x, y with
    | .error a, .error b =>
      if h : a = b then .isTrue (by rw [h]) else .isFalse (by simp [h])
    | .ok a, .ok b =>
      if h : a = b then .isTrue (by rw [h]) else .isFalse (by simp [h])
    | .error _, .ok _ => .isFalse (by simp)
    | .ok _, .error _ => .isFalse (by simp)

/-! # Theorems -/

/-- Python `','.join` of a single part. -/
theorem joinComma_single (x : String) : joinComma [x] = x := rfl

/-- C10: the four public text transforms are total on degenerate inputs:
`format_links_as_markdown` and `fix_numbering` map `None` to `None`, and
`convert_testrail_date_to_iso` and `convert_estimate_time_to_hours` return
the input unchanged on `None`, the empty string, and any non-string
input. -/
theorem text_transforms_total_on_degenerate :
    format_links_as_markdown_opt Option.none = Option.none ∧
    fix_numbering_opt Option.none = Option.none ∧
    convert_testrail_date_to_iso_py PyText.none = PyText.none ∧
    convert_testrail_date_to_iso_py PyText.other = PyText.other ∧
    convert_testrail_date_to_iso_py (PyText.str "") = PyText.str "" ∧
    convert_estimate_time_to_hours_py PyText.none = PyText.none ∧
    convert_estimate_time_to_hours_py PyText.other = PyText.other ∧
    convert_estimate_time_to_hours_py (PyText.str "") = PyText.str "" := by
  refine ⟨rfl, rfl, rfl, rfl, ?_, rfl, rfl, ?_⟩ <;> decide

/-- C5: with `preserve_ids` enabled, every in-range source case id is
recorded identically in `case_id_mapping`. -/
theorem preserve_ids_identity (s nowMs : Nat) (h : s ≤ MAX_SAFE_ID) :
    recordedCaseId true nowMs s = s := by
  simp [recordedCaseId, generateCaseId, h, Nat.not_lt.mpr h]

/-- Witness for C5 at the concrete id 12345. -/
theorem preserve_ids_identity_witness : recordedCaseId true 77 12345 = 12345 :=
  preserve_ids_identity 12345 77 (by decide)

/-- C1: under either `preserve_ids` setting the recorded target id fits in
a signed 32-bit integer, and every oversize source id maps to
`int(md5(str(id)).hexdigest()[:8], 16) % (2^31 - 1)`, a function of the
source id alone. -/
theorem caseId_int32_safe_and_hashed (preserve : Bool) (nowMs s : Nat) :
    recordedCaseId preserve nowMs s ≤ MAX_SAFE_ID ∧
    (MAX_SAFE_ID < s →
      recordedCaseId preserve nowMs s =
        md5First8Hex (strBytes (natDecChars s)) % MAX_SAFE_ID) := by
  have hM : 0 < MAX_SAFE_ID := by decide
  constructor
  · by_cases h : MAX_SAFE_ID < generateCaseId preserve nowMs s
    · simp only [recordedCaseId, if_pos h]
      exact Nat.le_of_lt (Nat.mod_lt _ hM)
    · simp only [recordedCaseId, if_neg h]
      exact Nat.le_of_not_lt h
  · intro h
    have hns : ¬ s ≤ MAX_SAFE_ID := Nat.not_le.mpr h
    have hgen : generateCaseId preserve nowMs s = hashedCaseId s := by
      cases preserve <;> simp [generateCaseId, hns]
    have hlt : ¬ MAX_SAFE_ID < hashedCaseId s :=
      Nat.not_lt.mpr (Nat.le_of_lt (Nat.mod_lt _ hM))
    simp [recordedCaseId, hgen, hlt, hashedCaseId]

set_option maxRecDepth 100000 in
/-- Witness for C1 at the spec's concrete oversize id 9 000 000 000:
`md5("9000000000")` begins `6b29e16a`, i.e. 1 797 906 794, already in
range. -/
theorem caseId_int32_safe_and_hashed_witness :
    recordedCaseId true 0 9000000000 ≤ MAX_SAFE_ID ∧
    recordedCaseId true 0 9000000000 =
      md5First8Hex (strBytes (natDecChars 9000000000)) % MAX_SAFE_ID ∧
    recordedCaseId true 0 9000000000 = 1797906794 :=
  ⟨(caseId_int32_safe_and_hashed true 0 9000000000).1,
   (caseId_int32_safe_and_hashed true 0 9000000000).2 (by decide),
   by rfl⟩

/-- C9 counterexample: with `tests.refs.enable` set and no existing `Refs`
field, the created field carries type code 2 — `text` in the repository's
own `qase_fields_type` table — not the URL type code 7. -/
theorem refs_field_created_with_text_type :
    create_refs_field true [] = RefsAction.created refsFieldData ∧
    refsFieldData.type = 2 ∧
    lookupA qase_fields_type "text" = some 2 ∧
    lookupA qase_fields_type "url" = some 7 ∧
    refsFieldData.type ≠ 7 := by
  refine ⟨rfl, rfl, ?_, ?_, by decide⟩ <;> decide

/-- C9 amended: the `Refs` field is ensured (found or created) exactly when
`tests.refs.enable` is set, and a created field is global
(`is_enabled_for_all_projects`) of text type (code 2), not URL type. -/
theorem refs_field_enable_gate_and_shape (enable : Bool)
    (existing : List ExistingField) :
    (create_refs_field enable existing = RefsAction.nothing ↔ enable = false) ∧
    (∀ d, create_refs_field enable existing = RefsAction.created d →
      d.is_enabled_for_all_projects = true ∧ d.type = 2 ∧
      lookupA qase_fields_type "text" = some 2) := by
  constructor
  · cases enable
    · simp [create_refs_field]
    · simp only [create_refs_field, if_pos]
      constructor
      · intro h
        exfalso
        revert h
        cases hf : existing.foldl
            (fun acc f => if f.title = "Refs" then some f.id else acc)
            (none : Option Nat) with
        | none => simp
        | some id =>
          by_cases h0 : id = 0 <;> simp [h0]
      · intro h
        exact absurd h (by simp)
  · intro d hd
    cases enable
    · simp [create_refs_field] at hd
    · simp only [create_refs_field, if_pos] at hd
      revert hd
      cases hf : existing.foldl
          (fun acc f => if f.title = "Refs" then some f.id else acc)
          (none : Option Nat) with
      | none =>
        intro hd
        simp at hd
        subst hd
        exact ⟨rfl, rfl, by decide⟩
      | some id =>
        by_cases h0 : id = 0 <;> intro hd <;> simp [h0] at hd
        subst hd
        exact ⟨rfl, rfl, by decide⟩

/-- C4: the estimate simplifier keeps the first two unit tokens with
pluralised full words; an `Nd Hh Mm` token list collapses hours and
minutes into ceiled hours; an `Nh Mm` list emits both tokens, each ceiled;
tokens beyond the three inspected ones never matter.  The three concrete
phrases evaluate as the specification states. -/
theorem estimate_parser_behavior :
    convert_estimate_time_to_hours "1wk 1d 1hr 1min 1sec" = "1 week 1 day" ∧
    convert_estimate_time_to_hours "5hr 30min" = "5 hours 30 minutes" ∧
    convert_estimate_time_to_hours "1d 3h 50m" = "1 day 4 hours" ∧
    (∀ fb t1 t2 t3 rest, isDayU t1.unit = true → isHourU t2.unit = true →
      isMinU t3.unit = true → 0 < ceilTok t1 → 0 < ceilSumHM t2 t3 →
      simplifyEst fb (t1 :: t2 :: t3 :: rest) =
        joinSpace [pluralWord (ceilTok t1) "day",
                   pluralWord (ceilSumHM t2 t3) "hour"]) ∧
    (∀ fb t1 t2, isHourU t1.unit = true → isMinU t2.unit = true →
      0 < ceilTok t1 → 0 < ceilTok t2 →
      simplifyEst fb [t1, t2] =
        joinSpace [pluralWord (ceilTok t1) "hour",
                   pluralWord (ceilTok t2) "minute"]) ∧
    (∀ fb t1 t2 t3 t4 rest,
      (isDayU t1.unit && isHourU t2.unit && isMinU t3.unit) = false →
      simplifyEst fb (t1 :: t2 :: t3 :: t4 :: rest) = estTwoCase fb t1 t2) := by
  refine ⟨by decide, by decide, by decide, ?_, ?_, ?_⟩
  · intro fb t1 t2 t3 rest h1 h2 h3 hd hh
    simp [simplifyEst, h1, h2, h3, hd, hh, joinSpace]
  · intro fb t1 t2 h1 h2 hh hm
    simp [simplifyEst, estTwoCase, h1, h2, hh, hm, joinSpace]
  · intro fb t1 t2 t3 t4 rest h
    simp only [simplifyEst, h, Bool.false_eq_true, if_false]

/-- Witness for C4's general clauses at the concrete token lists of the
three scenario phrases. -/
theorem estimate_parser_behavior_witness :
    simplifyEst "z" [⟨1, 1, "d"⟩, ⟨3, 1, "h"⟩, ⟨50, 1, "m"⟩] =
      joinSpace [pluralWord 1 "day", pluralWord 4 "hour"] ∧
    simplifyEst "z" [⟨5, 1, "hr"⟩, ⟨30, 1, "min"⟩] =
      joinSpace [pluralWord 5 "hour", pluralWord 30 "minute"] ∧
    simplifyEst "z" [⟨1, 1, "wk"⟩, ⟨1, 1, "d"⟩, ⟨1, 1, "hr"⟩, ⟨1, 1, "min"⟩,
      ⟨1, 1, "sec"⟩] = estTwoCase "z" ⟨1, 1, "wk"⟩ ⟨1, 1, "d"⟩ := by
  refine ⟨?_, ?_, ?_⟩
  · have h := (estimate_parser_behavior.2.2.2.1) "z"
      ⟨1, 1, "d"⟩ ⟨3, 1, "h"⟩ ⟨50, 1, "m"⟩ []
      (by decide) (by decide) (by decide) (by decide) (by decide)
    simpa using h
  · exact (estimate_parser_behavior.2.2.2.2.1) "z" ⟨5, 1, "hr"⟩ ⟨30, 1, "min"⟩
      (by decide) (by decide) (by decide) (by decide)
  · exact (estimate_parser_behavior.2.2.2.2.2) "z" ⟨1, 1, "wk"⟩ ⟨1, 1, "d"⟩
      ⟨1, 1, "hr"⟩ ⟨1, 1, "min"⟩ [⟨1, 1, "sec"⟩] (by decide)

/-- C8: `fix_numbering` renumbers every maximal block of consecutive
`^\d+\. `-matching lines as 1..K in order — any non-matching (in
particular blank) line ends a block and is kept unchanged, with the
counter reset for the next block — and the concrete example of the
specification evaluates as stated. -/
theorem fix_numbering_blocks :
    fix_numbering "0. A\n0. B\ntext\n0. C\n0. D" = "1. A\n2. B\ntext\n1. C\n2. D" ∧
    (∀ k l ls, lineNumMatch l = none →
      fixNumGo k (l :: ls) = l :: fixNumGo 1 ls) ∧
    (∀ bs rest, (∀ l ∈ bs, (lineNumMatch l).isSome) → headNoMatch rest →
      ∀ k, fixNumGo k (bs ++ rest) = renumberFrom k bs ++ fixNumGo 1 rest) := by
  refine ⟨by decide, ?_, ?_⟩
  · intro k l ls h
    simp [fixNumGo, h]
  · intro bs rest hbs hrest
    induction bs with
    | nil =>
      intro k
      simp only [List.nil_append, renumberFrom, List.nil_append]
      cases rest with
      | nil => rfl
      | cons r rs =>
        have hr : lineNumMatch r = none := hrest
        simp [fixNumGo, hr]
    | cons b bs ih =>
      intro k
      have hb : (lineNumMatch b).isSome := hbs b (List.mem_cons_self b bs)
      obtain ⟨r, hr⟩ := Option.isSome_iff_exists.mp hb
      have ih2 := ih (fun l hl => hbs l (List.mem_cons_of_mem b hl))
      simp [fixNumGo, hr, renumberFrom, ih2 (k + 1)]

/-- Witness for C8's general clauses on a concrete split line list. -/
theorem fix_numbering_blocks_witness :
    fixNumGo 9 ["text".data, "7. x".data] =
      "text".data :: fixNumGo 1 ["7. x".data] ∧
    fixNumGo 1 (["0. A".data, "5. B".data] ++ ["".data]) =
      renumberFrom 1 ["0. A".data, "5. B".data] ++ fixNumGo 1 ["".data] := by
  constructor
  · exact fix_numbering_blocks.2.1 9 "text".data ["7. x".data] (by decide)
  · exact fix_numbering_blocks.2.2 ["0. A".data, "5. B".data] ["".data]
      (by decide)
      (by show lineNumMatch "".data = none; decide) 1

/-! Association-list lemmas for the dict-built maps. -/

theorem lookupA_upsertA {α β : Type} [DecidableEq α] (m : List (α × β))
    (k : α) (v : β) (x : α) :
    lookupA (upsertA m k v) x = if x = k then some v else lookupA m x := by
  induction m with
  | nil => simp [upsertA, lookupA]
  | cons p m ih =>
    obtain ⟨a, b⟩ := p
    simp only [upsertA]
    by_cases hak : a = k
    · subst hak
      simp only [if_pos rfl, lookupA]
      by_cases hxa : x = a <;> simp [hxa]
    · simp only [if_neg hak, lookupA]
      by_cases hxa : x = a
      · have hxk : ¬ x = k := by rw [hxa]; exact hak
        simp [hxa, hxk, hak]
      · simp [hxa, ih]

/-- Lookup is unchanged by upsert-folding entries with other ids. -/
theorem lookupA_foldl_upsert_nid {β : Type} (f : SrcOption → β) :
    ∀ (xs : List SrcOption) (m : List (Nat × β)) (k : Nat),
      (∀ x ∈ xs, x.id ≠ k) →
      lookupA (xs.foldl (fun m x => upsertA m x.id (f x)) m) k = lookupA m k := by
  intro xs
  induction xs with
  | nil => intro m k _; rfl
  | cons x xs ih =>
    intro m k h
    have hx : x.id ≠ k := h x (List.mem_cons_self x xs)
    have hrest : ∀ y ∈ xs, y.id ≠ k := fun y hy => h y (List.mem_cons_of_mem x hy)
    simp only [List.foldl_cons]
    rw [ih _ k hrest, lookupA_upsertA, if_neg (fun hk => hx hk.symm)]

/-- With distinct source ids, the built dict maps each source entry to its
resolved value. -/
theorem lookupA_buildEnumMap {β : Type} (default : β) (pick : QaseOption → β)
    (trs : List SrcOption) (qs : List QaseOption) (tr : SrcOption)
    (hnd : (trs.map SrcOption.id).Nodup) (htr : tr ∈ trs) :
    lookupA (buildEnumMap default pick trs qs) tr.id =
      some (resolveByTitle default pick tr.label qs) := by
  unfold buildEnumMap
  have h : ∀ (xs : List SrcOption) (m : List (Nat × β)),
      (xs.map SrcOption.id).Nodup → tr ∈ xs →
      lookupA
          (xs.foldl
            (fun m x => upsertA m x.id (resolveByTitle default pick x.label qs)) m)
          tr.id =
        some (resolveByTitle default pick tr.label qs) := by
    intro xs
    induction xs with
    | nil => intro m _ htr'; cases htr'
    | cons x xs ih =>
      intro m hnd' htr'
      simp only [List.map_cons, List.nodup_cons] at hnd'
      rcases List.mem_cons.mp htr' with rfl | hmem
      · simp only [List.foldl_cons]
        rw [lookupA_foldl_upsert_nid _ xs _ tr.id
            (fun y hy hk => hnd'.1 (hk ▸ List.mem_map_of_mem SrcOption.id hy)),
          lookupA_upsertA, if_pos rfl]
      · simp only [List.foldl_cons]
        exact ih _ hnd'.2 hmem
  exact h trs [] hnd htr

/-- The inner matching loop keeps the default when no title matches. -/
theorem resolveByTitle_of_no_match {β : Type} (d : β) (pick : QaseOption → β)
    (label : String) (qs : List QaseOption)
    (h : ∀ q ∈ qs, lowerStr label ≠ lowerStr q.title) :
    resolveByTitle d pick label qs = d := by
  unfold resolveByTitle
  induction qs with
  | nil => rfl
  | cons q qs ih =>
    have hq : lowerStr label ≠ lowerStr q.title := h q (List.mem_cons_self q qs)
    simp only [List.foldl_cons, if_neg hq]
    exact ih (fun p hp => h p (List.mem_cons_of_mem q hp))

/-- Without a target option titled `high` the priority default is 1. -/
theorem findHighDefault_of_no_high (qs : List QaseOption)
    (h : ∀ q ∈ qs, lowerStr q.title ≠ "high") : findHighDefault qs = 1 := by
  unfold findHighDefault
  rw [List.find?_eq_none.mpr]
  intro q hq
  simpa using h q hq

/-- C6 counterexample: a source priority whose label matches no target
option is mapped to the id of the target option titled `High` — here 5 —
rather than to the fixed default 1. -/
theorem priorities_default_not_one :
    (∀ q ∈ [QaseOption.mk 5 "High" "high"],
      lowerStr "Critical" ≠ lowerStr q.title) ∧
    lookupA (create_priorities_map [⟨1, "Critical"⟩] [⟨5, "High", "high"⟩]) 1 =
      some 5 ∧
    (some 5 : Option Nat) ≠ some 1 := by decide

/-- C6 amended: a source type id with no case-insensitive title match maps
to 1 and a result-status id to `skipped`; an unmatched priority id maps to
the id of the first target option titled `High` when one exists, and to 1
only when none does. -/
theorem system_enum_default_mapping (trs : List SrcOption)
    (qs : List QaseOption) (tr : SrcOption)
    (hnd : (trs.map SrcOption.id).Nodup) (htr : tr ∈ trs)
    (hnomatch : ∀ q ∈ qs, lowerStr tr.label ≠ lowerStr q.title) :
    lookupA (create_types_map trs qs) tr.id = some 1 ∧
    lookupA (create_result_statuses_map trs qs) tr.id = some "skipped" ∧
    lookupA (create_priorities_map trs qs) tr.id = some (findHighDefault qs) ∧
    ((∀ q ∈ qs, lowerStr q.title ≠ "high") →
      lookupA (create_priorities_map trs qs) tr.id = some 1) := by
  refine ⟨?_, ?_, ?_, ?_⟩
  · rw [create_types_map, lookupA_buildEnumMap _ _ _ _ _ hnd htr,
      resolveByTitle_of_no_match _ _ _ _ hnomatch]
  · rw [create_result_statuses_map, lookupA_buildEnumMap _ _ _ _ _ hnd htr,
      resolveByTitle_of_no_match _ _ _ _ hnomatch]
  · rw [create_priorities_map, lookupA_buildEnumMap _ _ _ _ _ hnd htr,
      resolveByTitle_of_no_match _ _ _ _ hnomatch]
  · intro hnohigh
    rw [create_priorities_map, lookupA_buildEnumMap _ _ _ _ _ hnd htr,
      resolveByTitle_of_no_match _ _ _ _ hnomatch,
      findHighDefault_of_no_high _ hnohigh]

/-- Witness for C6's amended theorem on concrete option lists without any
match and without a `High` option. -/
theorem system_enum_default_mapping_witness :
    lookupA (create_types_map [⟨3, "Zzz"⟩] [⟨2, "Other", "other"⟩]) 3 = some 1 ∧
    lookupA (create_result_statuses_map [⟨3, "Zzz"⟩] [⟨2, "Other", "other"⟩]) 3 =
      some "skipped" ∧
    lookupA (create_priorities_map [⟨3, "Zzz"⟩] [⟨2, "Other", "other"⟩]) 3 =
      some 1 := by
  have h := system_enum_default_mapping [⟨3, "Zzz"⟩] [⟨2, "Other", "other"⟩]
    ⟨3, "Zzz"⟩ (by decide) (by decide) (by decide)
  exact ⟨h.1, h.2.1, h.2.2.2 (by decide)⟩

/-- C3 counterexample: a type-6 enum field with a built (non-empty)
`tr_key_to_qase_id` mapping and a source-valid key `"1"` absent from the
mapping writes the raw key through to the payload instead of dropping
it. -/
theorem enum_unmapped_key_written_raw :
    importEnumValue
        ⟨6, 42, false, [⟨none, "1,Low\n2,High"⟩], [("2", PKey.pint 9)], []⟩ 10
        (CVal.scalar (SVal.s "1")) = Except.ok (some "1") ∧
    (Except.ok (some "1") : Except Unit (Option String)) ≠ Except.ok none := by
  decide

/-- C3 amended: with a built mapping, an unmapped (but source-valid) key is
dropped only in the global type-12 path — where a fully-unmapped value
omits the field — while the type-6 and project-specific type-12 paths
write the raw source key through; a value that fails source-side
validation is always dropped. -/
theorem enum_unmapped_key_handling :
    (∀ cf pid raw v vrest, cf.type_id = 6 → cf.tr_key_to_qase_id ≠ [] →
      validateCFV cf pid raw = Except.ok (some (v :: vrest)) →
      lookupA cf.tr_key_to_qase_id (svalStr v) = none →
      importEnumValue cf pid raw = Except.ok (some (svalStr v))) ∧
    (∀ cf pid raw v, cf.type_id = 12 → cf.isProjectSpecific = true →
      cf.tr_key_to_qase_id ≠ [] →
      validateCFV cf pid raw = Except.ok (some [v]) →
      lookupA cf.tr_key_to_qase_id (svalStr v) = none →
      importEnumValue cf pid raw = Except.ok (some (svalStr v))) ∧
    (∀ cf pid raw v, cf.type_id = 12 → cf.isProjectSpecific = false →
      validateCFV cf pid raw = Except.ok (some [v]) →
      validateCFV cf pid (CVal.list [v]) = Except.ok (some [v]) →
      lookupA cf.tr_key_to_qase_id (svalStr v) = none →
      lookupA cf.qase_values (PKey.pstr (svalStr v)) = none →
      importEnumValue cf pid raw = Except.ok none) ∧
    (∀ cf pid raw, validateCFV cf pid raw = Except.ok none →
      importEnumValue cf pid raw = Except.ok none) := by
  refine ⟨?_, ?_, ?_, ?_⟩
  · intro cf pid raw v vrest h6 hne hv hl
    have h12 : ¬ cf.type_id = 12 := by omega
    simp [importEnumValue, hv, h12, hne, hl]
  · intro cf pid raw v h12 hps hne hv hl
    simp [importEnumValue, hv, h12, hps, hne, hl, joinComma_single]
  · intro cf pid raw v h12 hps hv hv2 hl hq
    simp [importEnumValue, hv, h12, hps, hv2, hl, hq]
  · intro cf pid raw hv
    simp [importEnumValue, hv]

/-- Witness for C3's amended theorem on concrete fields and values. -/
theorem enum_unmapped_key_handling_witness :
    importEnumValue
        ⟨6, 42, false, [⟨none, "1,Low\n2,High"⟩], [("2", PKey.pint 9)], []⟩ 10
        (CVal.scalar (SVal.s "1")) = Except.ok (some "1") ∧
    importEnumValue
        ⟨12, 42, true, [⟨none, "1,Low\n2,High"⟩], [("2", PKey.pint 9)], []⟩ 10
        (CVal.list [SVal.s "1"]) = Except.ok (some "1") ∧
    importEnumValue
        ⟨12, 42, false, [⟨none, "1,Low\n2,High"⟩], [("2", PKey.pint 9)],
          [(PKey.pint 9, "High")]⟩ 10
        (CVal.list [SVal.s "1"]) = Except.ok none ∧
    importEnumValue
        ⟨6, 42, false, [⟨none, "1,Low\n2,High"⟩], [("2", PKey.pint 9)], []⟩ 10
        (CVal.scalar (SVal.s "3")) = Except.ok none := by
  refine ⟨?_, ?_, ?_, ?_⟩
  · exact enum_unmapped_key_handling.1
      ⟨6, 42, false, [⟨none, "1,Low\n2,High"⟩], [("2", PKey.pint 9)], []⟩ 10
      (CVal.scalar (SVal.s "1")) (SVal.s "1") [] rfl (by decide) (by decide)
      (by decide)
  · exact enum_unmapped_key_handling.2.1
      ⟨12, 42, true, [⟨none, "1,Low\n2,High"⟩], [("2", PKey.pint 9)], []⟩ 10
      (CVal.list [SVal.s "1"]) (SVal.s "1") rfl rfl (by decide) (by decide)
      (by decide)
  · exact enum_unmapped_key_handling.2.2.1
      ⟨12, 42, false, [⟨none, "1,Low\n2,High"⟩], [("2", PKey.pint 9)],
        [(PKey.pint 9, "High")]⟩ 10
      (CVal.list [SVal.s "1"]) (SVal.s "1") rfl rfl (by decide) (by decide)
      (by decide) (by decide)
  · exact enum_unmapped_key_handling.2.2.2
      ⟨6, 42, false, [⟨none, "1,Low\n2,High"⟩], [("2", PKey.pint 9)], []⟩ 10
      (CVal.scalar (SVal.s "3")) (by decide)

/-! Lemmas on `pyStrip`, `lookupA` and `parseItems` for the enum-mapping
claim. -/

/-- Stripping is idempotent. -/
theorem pyStripL_idem (l : List Char) : pyStripL (pyStripL l) = pyStripL l := by
  have hrt : ∀ x : List Char, rtrimBy isPySpace x = List.rdropWhile isPySpace x :=
    fun _ => rfl
  unfold pyStripL
  rw [hrt, hrt]
  have hy : List.dropWhile isPySpace (l.dropWhile isPySpace) =
      l.dropWhile isPySpace := List.dropWhile_idempotent _ _
  set y := l.dropWhile isPySpace with hdefy
  have hdw : List.dropWhile isPySpace (List.rdropWhile isPySpace y) =
      List.rdropWhile isPySpace y := by
    obtain ⟨t, ht⟩ := List.rdropWhile_prefix isPySpace y
    cases hr : List.rdropWhile isPySpace y with
    | nil => rfl
    | cons c z =>
      have hyz : y = c :: (z ++ t) := by
        rw [← ht, hr]; rfl
      have hc : ¬ isPySpace c = true := by
        intro hpc
        have h1 : List.dropWhile isPySpace y = List.dropWhile isPySpace (z ++ t) := by
          rw [hyz, List.dropWhile_cons, if_pos hpc]
        have h2 : y.length ≤ (z ++ t).length := by
          conv_lhs => rw [← hy, h1]
          exact (List.dropWhile_sublist _).length_le
        rw [hyz] at h2
        simp at h2
      rw [List.dropWhile_cons, if_neg hc]
  rw [hdw, List.rdropWhile_idempotent]

/-- Stripping a string is idempotent. -/
theorem pyStrip_idem (s : String) : pyStrip (pyStrip s) = pyStrip s := by
  simp [pyStrip, pyStripL_idem]

theorem lookupA_cons_eq {α β : Type} [DecidableEq α] (a : α) (b : β)
    (m : List (α × β)) : lookupA ((a, b) :: m) a = some b := by
  simp [lookupA]

theorem lookupA_cons_ne {α β : Type} [DecidableEq α] {k a : α} (h : ¬ k = a)
    (b : β) (m : List (α × β)) : lookupA ((a, b) :: m) k = lookupA m k := by
  simp [lookupA, h]

theorem upsertA_cons_eq {α β : Type} [DecidableEq α] (a : α) (b v : β)
    (m : List (α × β)) : upsertA ((a, b) :: m) a v = (a, v) :: m := by
  simp [upsertA]

theorem upsertA_cons_ne {α β : Type} [DecidableEq α] {a k : α} (h : ¬ a = k)
    (b : β) (v : β) (m : List (α × β)) :
    upsertA ((a, b) :: m) k v = (a, b) :: upsertA m k v := by
  simp [upsertA, h]

/-- A successful lookup is a member. -/
theorem lookupA_mem {α β : Type} [DecidableEq α] :
    ∀ {m : List (α × β)} {k : α} {v : β}, lookupA m k = some v → (k, v) ∈ m := by
  intro m
  induction m with
  | nil => intro k v h; cases h
  | cons p m ih =>
    intro k v h
    obtain ⟨a, b⟩ := p
    by_cases hka : k = a
    · subst hka
      rw [lookupA_cons_eq] at h
      cases h
      exact List.mem_cons_self _ _
    · rw [lookupA_cons_ne hka] at h
      exact List.mem_cons_of_mem _ (ih h)

/-- Two entries of a list with distinct keys agree when their keys do. -/
theorem nodup_keys_eq {α β : Type} :
    ∀ {l : List (α × β)}, (l.map Prod.fst).Nodup →
      ∀ {k : α} {a b : β}, (k, a) ∈ l → (k, b) ∈ l → a = b := by
  intro l
  induction l with
  | nil => intro _ k a b ha; cases ha
  | cons p l ih =>
    intro hnd k a b ha hb
    simp only [List.map_cons, List.nodup_cons] at hnd
    rcases List.mem_cons.mp ha with ha' | ha' <;>
      rcases List.mem_cons.mp hb with hb' | hb'
    · exact congrArg Prod.snd (ha'.trans hb'.symm)
    · exfalso
      apply hnd.1
      rw [← ha']
      exact show k ∈ _ by simpa using List.mem_map_of_mem Prod.fst hb'
    · exfalso
      apply hnd.1
      rw [← hb']
      exact show k ∈ _ by simpa using List.mem_map_of_mem Prod.fst ha'
    · exact ih hnd.2 ha' hb'

/-- Keys in an upserted dict come from the key or the dict. -/
theorem mem_keys_upsertA {α β : Type} [DecidableEq α] :
    ∀ {m : List (α × β)} {k : α} {v : β} {x : α},
      x ∈ (upsertA m k v).map Prod.fst → x = k ∨ x ∈ m.map Prod.fst := by
  intro m
  induction m with
  | nil => intro k v x h; simpa [upsertA] using h
  | cons p m ih =>
    intro k v x h
    obtain ⟨a, b⟩ := p
    by_cases hak : a = k
    · subst hak
      rw [upsertA_cons_eq] at h
      simp only [List.map_cons, List.mem_cons] at h
      rcases h with rfl | h
      · exact Or.inl rfl
      · exact Or.inr (by simpa using Or.inr h)
    · rw [upsertA_cons_ne hak] at h
      simp only [List.map_cons, List.mem_cons] at h
      rcases h with rfl | h
      · exact Or.inr (by simp)
      · rcases ih h with h' | h'
        · exact Or.inl h'
        · exact Or.inr (by simpa using Or.inr h')

/-- Upserting preserves distinctness of keys. -/
theorem nodup_keys_upsertA {α β : Type} [DecidableEq α] :
    ∀ {m : List (α × β)} {k : α} {v : β},
      (m.map Prod.fst).Nodup → ((upsertA m k v).map Prod.fst).Nodup := by
  intro m
  induction m with
  | nil => intro k v _; simp [upsertA]
  | cons p m ih =>
    intro k v hnd
    obtain ⟨a, b⟩ := p
    simp only [List.map_cons, List.nodup_cons] at hnd
    by_cases hak : a = k
    · subst hak
      rw [upsertA_cons_eq]
      simp only [List.map_cons, List.nodup_cons]
      exact hnd
    · rw [upsertA_cons_ne hak]
      simp only [List.map_cons, List.nodup_cons]
      refine ⟨fun hmem => ?_, ih hnd.2⟩
      rcases mem_keys_upsertA hmem with rfl | h'
      · exact hak rfl
      · exact hnd.1 h'

/-- Values in an upserted dict come from the value or the dict. -/
theorem mem_upsertA {α β : Type} [DecidableEq α] :
    ∀ {m : List (α × β)} {k : α} {v : β} {q : α × β},
      q ∈ upsertA m k v → q = (k, v) ∨ q ∈ m := by
  intro m
  induction m with
  | nil => intro k v q h; simpa [upsertA] using h
  | cons p m ih =>
    intro k v q h
    obtain ⟨a, b⟩ := p
    by_cases hak : a = k
    · subst hak
      rw [upsertA_cons_eq] at h
      rcases List.mem_cons.mp h with rfl | h
      · exact Or.inl rfl
      · exact Or.inr (List.mem_cons_of_mem _ h)
    · rw [upsertA_cons_ne hak] at h
      rcases List.mem_cons.mp h with rfl | h
      · exact Or.inr (List.mem_cons_self _ _)
      · rcases ih h with h' | h'
        · exact Or.inl h'
        · exact Or.inr (List.mem_cons_of_mem _ h')

/-- The `items` parser produces a dict with distinct keys. -/
theorem parseItems_keys_nodup (items : String) :
    ((parseItems items).map Prod.fst).Nodup := by
  unfold parseItems
  have h : ∀ (lines : List (List Char)) (m : List (String × String)),
      (m.map Prod.fst).Nodup →
      (((lines.foldl
          (fun m line =>
            match splitFirstComma line with
            | some (k, t) => upsertA m (pyStrip (String.mk k)) (pyStrip (String.mk t))
            | none => m)
          m)).map Prod.fst).Nodup := by
    intro lines
    induction lines with
    | nil => intro m hm; exact hm
    | cons line lines ih =>
      intro m hm
      simp only [List.foldl_cons]
      cases hsp : splitFirstComma line with
      | none => exact ih m hm
      | some kt => exact ih _ (nodup_keys_upsertA hm)
  exact h _ [] (by simp)

/-- Every label stored by the `items` parser is already stripped. -/
theorem parseItems_value_stripped (items : String) :
    ∀ p ∈ parseItems items, pyStrip p.2 = p.2 := by
  unfold parseItems
  have h : ∀ (lines : List (List Char)) (m : List (String × String)),
      (∀ p ∈ m, pyStrip p.2 = p.2) →
      ∀ p ∈ lines.foldl
          (fun m line =>
            match splitFirstComma line with
            | some (k, t) => upsertA m (pyStrip (String.mk k)) (pyStrip (String.mk t))
            | none => m)
          m, pyStrip p.2 = p.2 := by
    intro lines
    induction lines with
    | nil => intro m hm; exact hm
    | cons line lines ih =>
      intro m hm
      simp only [List.foldl_cons]
      cases hsp : splitFirstComma line with
      | none => exact ih m hm
      | some kt =>
        refine ih _ ?_
        intro p hp
        rcases mem_upsertA hp with rfl | hp'
        · exact pyStrip_idem _
        · exact hm p hp'
  exact h _ [] (by simp)

/-- Lookup in the built key mapping misses when the key is absent from the
parsed source dict. -/
theorem lookupA_trMap_not_mem (qvs : List (PKey × String)) :
    ∀ (l : List (String × String)) (k : String), k ∉ l.map Prod.fst →
      lookupA
        (l.filterMap (fun p =>
          (qvs.find? (fun q => pyStrip p.2 = pyStrip q.2)).map (fun q => (p.1, q.1))))
        k = none := by
  intro l
  induction l with
  | nil => intro k _; rfl
  | cons p l ih =>
    intro k hk
    obtain ⟨a, b⟩ := p
    simp only [List.map_cons, List.mem_cons, not_or] at hk
    simp only [List.filterMap_cons]
    cases hf : (qvs.find? (fun q => pyStrip b = pyStrip q.2)) with
    | none =>
      simp only [hf, Option.map_none']
      exact ih k hk.2
    | some q0 =>
      simp only [hf, Option.map_some']
      rw [lookupA_cons_ne hk.1]
      exact ih k hk.2

/-- Lookup in the built key mapping, characterised through the parsed
source dict: a present key resolves through the first stripped-title
match, an absent one stays absent. -/
theorem lookupA_trMap_char (qvs : List (PKey × String)) :
    ∀ (l : List (String × String)), (l.map Prod.fst).Nodup → ∀ (k : String),
      lookupA
        (l.filterMap (fun p =>
          (qvs.find? (fun q => pyStrip p.2 = pyStrip q.2)).map (fun q => (p.1, q.1))))
        k =
      (lookupA l k).bind
        (fun t => (qvs.find? (fun q => pyStrip t = pyStrip q.2)).map (fun q => q.1)) := by
  intro l
  induction l with
  | nil => intro _ k; rfl
  | cons p l ih =>
    intro hnd k
    obtain ⟨a, b⟩ := p
    simp only [List.map_cons, List.nodup_cons] at hnd
    simp only [List.filterMap_cons]
    by_cases hka : k = a
    · subst hka
      cases hf : (qvs.find? (fun q => pyStrip b = pyStrip q.2)) with
      | none =>
        simp only [hf, Option.map_none']
        rw [lookupA_trMap_not_mem qvs l k hnd.1, lookupA_cons_eq,
          Option.some_bind, hf, Option.map_none']
      | some q0 =>
        simp only [hf, Option.map_some']
        rw [lookupA_cons_eq, lookupA_cons_eq, Option.some_bind, hf,
          Option.map_some']
    · cases hf : (qvs.find? (fun q => pyStrip b = pyStrip q.2)) with
      | none =>
        simp only [hf, Option.map_none']
        rw [ih hnd.2 k, lookupA_cons_ne hka]
      | some q0 =>
        simp only [hf, Option.map_some']
        rw [lookupA_cons_ne hka, lookupA_cons_ne hka, ih hnd.2 k]

/-- C2: `tr_key_to_qase_id` sends each source key to the target value id
whose (stripped) title equals the source label, leaves unmatched and
absent keys out, yields exactly `{"1": 7, "2": 8}` on the specification's
example, and — with distinct target ids — round-trips a mapped key back to
its source label (target titles being compared stripped). -/
theorem trKeyToQaseId_label_matching :
    create_tr_key_to_qase_id_mapping [⟨none, "1,Low\n2,High"⟩]
        [(.pint 7, "Low"), (.pint 8, "High")] =
      some [("1", PKey.pint 7), ("2", PKey.pint 8)] ∧
    (∀ items qvs k qid, lookupA (trKeyMapping items qvs) k = some qid →
      ∃ t qt, lookupA (parseItems items) k = some t ∧ (qid, qt) ∈ qvs ∧
        pyStrip qt = pyStrip t) ∧
    (∀ items qvs k t, lookupA (parseItems items) k = some t →
      (∀ q ∈ qvs, pyStrip q.2 ≠ pyStrip t) →
      lookupA (trKeyMapping items qvs) k = none) ∧
    (∀ items qvs k, lookupA (parseItems items) k = none →
      lookupA (trKeyMapping items qvs) k = none) ∧
    (∀ items qvs k qid qt t, (qvs.map Prod.fst).Nodup →
      lookupA (trKeyMapping items qvs) k = some qid →
      lookupA (parseItems items) k = some t → (qid, qt) ∈ qvs →
      pyStrip qt = t) := by
  refine ⟨by decide, ?_, ?_, ?_, ?_⟩
  · intro items qvs k qid h
    rw [trKeyMapping, lookupA_trMap_char qvs _ (parseItems_keys_nodup items) k] at h
    cases hl : lookupA (parseItems items) k with
    | none => rw [hl] at h; cases h
    | some t =>
      rw [hl] at h
      simp only [Option.some_bind] at h
      cases hf : qvs.find? (fun q => pyStrip t = pyStrip q.2) with
      | none => rw [hf] at h; cases h
      | some q0 =>
        rw [hf] at h
        simp only [Option.map_some', Option.some.injEq] at h
        refine ⟨t, q0.2, rfl, ?_, ?_⟩
        · rw [← h]
          exact List.mem_of_find?_eq_some hf
        · have := List.find?_some hf
          simp only [decide_eq_true_eq] at this
          exact this.symm
  · intro items qvs k t hl hno
    rw [trKeyMapping, lookupA_trMap_char qvs _ (parseItems_keys_nodup items) k, hl]
    simp only [Option.some_bind]
    rw [List.find?_eq_none.mpr]
    · rfl
    · intro q hq
      simp only [decide_eq_true_eq]
      exact fun hh => hno q hq hh.symm
  · intro items qvs k hl
    rw [trKeyMapping, lookupA_trMap_char qvs _ (parseItems_keys_nodup items) k, hl]
    rfl
  · intro items qvs k qid qt t hnd h hl hq
    rw [trKeyMapping, lookupA_trMap_char qvs _ (parseItems_keys_nodup items) k, hl] at h
    simp only [Option.some_bind] at h
    cases hf : qvs.find? (fun q => pyStrip t = pyStrip q.2) with
    | none => rw [hf] at h; cases h
    | some q0 =>
      rw [hf] at h
      simp only [Option.map_some', Option.some.injEq] at h
      have hmem : (qid, q0.2) ∈ qvs := by
        rw [← h]
        exact List.mem_of_find?_eq_some hf
      have heq : qt = q0.2 := nodup_keys_eq hnd hq hmem
      have hpred := List.find?_some hf
      simp only [decide_eq_true_eq] at hpred
      have hts : pyStrip t = t :=
        parseItems_value_stripped items (k, t) (lookupA_mem hl)
      rw [heq, ← hpred, hts]

/-- Witness for C2 on the specification's example field. -/
theorem trKeyToQaseId_label_matching_witness :
    (∃ t qt, lookupA (parseItems "1,Low\n2,High") "2" = some t ∧
      (PKey.pint 8, qt) ∈ [(PKey.pint 7, "Low"), (PKey.pint 8, "High")] ∧
      pyStrip qt = pyStrip t) ∧
    lookupA (trKeyMapping "3,Zed" [(PKey.pint 7, "Low")]) "3" = none ∧
    lookupA (trKeyMapping "1,Low" [(PKey.pint 7, "Low")]) "9" = none ∧
    pyStrip "High" = "High" := by
  refine ⟨?_, ?_, ?_, ?_⟩
  · exact trKeyToQaseId_label_matching.2.1 "1,Low\n2,High"
      [(PKey.pint 7, "Low"), (PKey.pint 8, "High")] "2" (PKey.pint 8) (by decide)
  · exact trKeyToQaseId_label_matching.2.2.1 "3,Zed" [(PKey.pint 7, "Low")]
      "3" "Zed" (by decide) (by decide)
  · exact trKeyToQaseId_label_matching.2.2.2.1 "1,Low" [(PKey.pint 7, "Low")]
      "9" (by decide)
  · exact trKeyToQaseId_label_matching.2.2.2.2 "1,Low\n2,High"
      [(PKey.pint 7, "Low"), (PKey.pint 8, "High")] "2" (PKey.pint 8) "High" "High"
      (by decide) (by decide) (by decide) (by decide)

/-! Lemmas towards the idempotence analysis of `format_links_as_markdown`
(claim C7): idempotence of `fix_numbering`, and preservation of
URL-freeness. -/

theorem decDigitChar_isDigit : ∀ n, n < 10 → (decDigitChar n).isDigit = true := by
  decide

/-- The decimal renderer with a digit accumulator only produces digits. -/
theorem natDecCharsAux_digits :
    ∀ (fuel n : Nat) (acc : List Char), (∀ c ∈ acc, c.isDigit = true) →
      ∀ c ∈ natDecCharsAux fuel n acc, c.isDigit = true := by
  intro fuel
  induction fuel with
  | zero => intro n acc hacc; exact hacc
  | succ fuel ih =>
    intro n acc hacc c hc
    rw [natDecCharsAux] at hc
    by_cases hn : n < 10
    · rw [if_pos hn] at hc
      rcases List.mem_cons.mp hc with rfl | hc'
      · exact decDigitChar_isDigit n hn
      · exact hacc c hc'
    · rw [if_neg hn] at hc
      refine ih (n / 10) _ ?_ c hc
      intro x hx
      rcases List.mem_cons.mp hx with rfl | hx'
      · exact decDigitChar_isDigit _ (Nat.mod_lt n (by omega))
      · exact hacc x hx'

theorem natDecChars_digits (n : Nat) : ∀ c ∈ natDecChars n, c.isDigit = true :=
  natDecCharsAux_digits (n + 1) n [] (by intro c hc; cases hc)

theorem natDecCharsAux_ne_nil_of_acc :
    ∀ (fuel n : Nat) (acc : List Char), acc ≠ [] → natDecCharsAux fuel n acc ≠ [] := by
  intro fuel
  induction fuel with
  | zero => intro n acc hacc; exact hacc
  | succ fuel ih =>
    intro n acc hacc
    rw [natDecCharsAux]
    by_cases hn : n < 10
    · rw [if_pos hn]; exact List.cons_ne_nil _ _
    · rw [if_neg hn]; exact ih _ _ (List.cons_ne_nil _ _)

theorem natDecChars_ne_nil (n : Nat) : natDecChars n ≠ [] := by
  rw [natDecChars, natDecCharsAux]
  by_cases hn : n < 10
  · rw [if_pos hn]; exact List.cons_ne_nil _ _
  · rw [if_neg hn]; exact natDecCharsAux_ne_nil_of_acc _ _ _ (List.cons_ne_nil _ _)

/-- `takeWhile` over a satisfying run followed by a failing head. -/
theorem takeWhile_run_append (p : Char → Bool) :
    ∀ (xs : List Char) (y : Char) (ys : List Char),
      (∀ c ∈ xs, p c = true) → p y = false →
      (xs ++ y :: ys).takeWhile p = xs := by
  intro xs
  induction xs with
  | nil =>
    intro y ys _ hy
    simp [List.takeWhile_cons, hy]
  | cons x xs ih =>
    intro y ys hall hy
    have hx : p x = true := hall x (List.mem_cons_self x xs)
    rw [List.cons_append, List.takeWhile_cons, hx, if_pos rfl,
      ih y ys (fun c hc => hall c (List.mem_cons_of_mem x hc)) hy]

/-- `dropWhile` over a satisfying run followed by a failing head. -/
theorem dropWhile_run_append (p : Char → Bool) :
    ∀ (xs : List Char) (y : Char) (ys : List Char),
      (∀ c ∈ xs, p c = true) → p y = false →
      (xs ++ y :: ys).dropWhile p = y :: ys := by
  intro xs
  induction xs with
  | nil =>
    intro y ys _ hy
    simp [List.dropWhile_cons, hy]
  | cons x xs ih =>
    intro y ys hall hy
    have hx : p x = true := hall x (List.mem_cons_self x xs)
    rw [List.cons_append, List.dropWhile_cons, hx, if_pos rfl]
    exact ih y ys (fun c hc => hall c (List.mem_cons_of_mem x hc)) hy

/-- A renumbered line matches the numbering pattern again, with the same
remainder. -/
theorem lineNumMatch_numberedLine (k : Nat) (rest : List Char) :
    lineNumMatch (numberedLine k rest) = some rest := by
  unfold lineNumMatch numberedLine
  have hdot : Char.isDigit '.' = false := by decide
  rw [takeWhile_run_append _ _ _ _ (natDecChars_digits k) hdot,
    dropWhile_run_append _ _ _ _ (natDecChars_digits k) hdot]
  rw [if_neg (natDecChars_ne_nil k)]
  rfl

/-- A matching line decomposes as digits, `'. '`, remainder. -/
theorem lineNumMatch_decomp {l rest : List Char}
    (h : lineNumMatch l = some rest) :
    l = l.takeWhile Char.isDigit ++ '.' :: ' ' :: rest := by
  unfold lineNumMatch at h
  by_cases hds : l.takeWhile Char.isDigit = []
  · rw [if_pos hds] at h; cases h
  · rw [if_neg hds] at h
    split at h
    · next heq =>
      cases h
      conv_lhs => rw [← List.takeWhile_append_dropWhile (p := Char.isDigit) (l := l)]
      rw [heq]
    · cases h

/-- The renumbering pass is idempotent on line lists, for any starting
counter. -/
theorem fixNumGo_idem : ∀ (ls : List (List Char)) (k : Nat),
    fixNumGo k (fixNumGo k ls) = fixNumGo k ls := by
  intro ls
  induction ls with
  | nil => intro k; rfl
  | cons l ls ih =>
    intro k
    cases hm : lineNumMatch l with
    | some rest =>
      rw [fixNumGo, hm, fixNumGo, lineNumMatch_numberedLine, ih (k + 1)]
    | none =>
      rw [fixNumGo, hm, fixNumGo, hm, ih 1]

theorem splitNL_ne_nil (cs : List Char) : splitNL cs ≠ [] := by
  cases cs with
  | nil => exact List.cons_ne_nil _ _
  | cons c rest =>
    rw [splitNL]
    by_cases hc : c = '\n'
    · rw [if_pos hc]; exact List.cons_ne_nil _ _
    · rw [if_neg hc]
      cases splitNL rest <;> exact List.cons_ne_nil _ _

theorem joinNL_splitNL : ∀ cs : List Char, joinNL (splitNL cs) = cs := by
  intro cs
  induction cs with
  | nil => rfl
  | cons c rest ih =>
    rw [splitNL]
    by_cases hc : c = '\n'
    · rw [if_pos hc, hc]
      cases hs : splitNL rest with
      | nil => exact absurd hs (splitNL_ne_nil rest)
      | cons s ss =>
        rw [hs] at ih
        rw [joinNL, List.nil_append, ih]
    · rw [if_neg hc]
      cases hs : splitNL rest with
      | nil => exact absurd hs (splitNL_ne_nil rest)
      | cons s ss =>
        rw [hs] at ih
        cases ss with
        | nil =>
          rw [joinNL] at ih ⊢
          rw [ih]
        | cons s2 ss2 =>
          rw [joinNL] at ih ⊢
          rw [List.cons_append, ih]

theorem no_newline_splitNL :
    ∀ (cs : List Char) (l : List Char), l ∈ splitNL cs → '\n' ∉ l := by
  intro cs
  induction cs with
  | nil =>
    intro l hl
    rcases List.mem_cons.mp hl with rfl | h
    · exact List.not_mem_nil _
    · cases h
  | cons c rest ih =>
    intro l hl
    rw [splitNL] at hl
    by_cases hc : c = '\n'
    · rw [if_pos hc] at hl
      rcases List.mem_cons.mp hl with rfl | h
      · exact List.not_mem_nil _
      · exact ih l h
    · rw [if_neg hc] at hl
      cases hs : splitNL rest with
      | nil => exact absurd hs (splitNL_ne_nil rest)
      | cons s ss =>
        rw [hs] at hl
        rcases List.mem_cons.mp hl with rfl | h
        · intro hmem
          rcases List.mem_cons.mp hmem with h' | h'
          · exact hc h'.symm
          · exact ih s (hs ▸ List.mem_cons_self s ss) h'
        · exact ih l (hs ▸ List.mem_cons_of_mem s h)

theorem splitNL_no_newline {l : List Char} (h : '\n' ∉ l) : splitNL l = [l] := by
  induction l with
  | nil => rfl
  | cons c l ih =>
    have hc : ¬ c = '\n' := fun hcc => h (hcc ▸ List.mem_cons_self c l)
    rw [splitNL, if_neg hc, ih (fun hm => h (List.mem_cons_of_mem c hm))]

theorem splitNL_append_newline {l : List Char} (t : List Char) (h : '\n' ∉ l) :
    splitNL (l ++ '\n' :: t) = l :: splitNL t := by
  induction l with
  | nil => rw [List.nil_append, splitNL, if_pos rfl]
  | cons c l ih =>
    have hc : ¬ c = '\n' := fun hcc => h (hcc ▸ List.mem_cons_self c l)
    rw [List.cons_append, splitNL, if_neg hc,
      ih (fun hm => h (List.mem_cons_of_mem c hm))]

theorem splitNL_joinNL :
    ∀ ls : List (List Char), ls ≠ [] → (∀ l ∈ ls, '\n' ∉ l) →
      splitNL (joinNL ls) = ls := by
  intro ls
  induction ls with
  | nil => intro h; exact absurd rfl h
  | cons l ls ih =>
    intro _ hnl
    cases ls with
    | nil =>
      rw [joinNL]
      exact splitNL_no_newline (hnl l (List.mem_cons_self l _))
    | cons l2 ls2 =>
      rw [joinNL, splitNL_append_newline _ (hnl l (List.mem_cons_self l _)),
        ih (List.cons_ne_nil _ _) (fun x hx => hnl x (List.mem_cons_of_mem l hx))]

/-- The renumbering pass keeps every line free of newlines. -/
theorem no_newline_fixNumGo :
    ∀ (ls : List (List Char)) (k : Nat), (∀ l ∈ ls, '\n' ∉ l) →
      ∀ l' ∈ fixNumGo k ls, '\n' ∉ l' := by
  intro ls
  induction ls with
  | nil => intro k _ l' hl'; cases hl'
  | cons l ls ih =>
    intro k hnl l' hl'
    have hl : '\n' ∉ l := hnl l (List.mem_cons_self l ls)
    have hrest : ∀ x ∈ ls, '\n' ∉ x := fun x hx => hnl x (List.mem_cons_of_mem l hx)
    cases hm : lineNumMatch l with
    | some rest =>
      rw [fixNumGo, hm] at hl'
      rcases List.mem_cons.mp hl' with rfl | h
      · intro hmem
        rcases List.mem_append.mp hmem with hdig | htail
        · have := natDecChars_digits k '\n' hdig
          simp at this
        · rcases List.mem_cons.mp htail with h1 | h1
          · cases h1
          · rcases List.mem_cons.mp h1 with h2 | h2
            · cases h2
            · apply hl
              rw [lineNumMatch_decomp hm]
              exact List.mem_append.mpr
                (Or.inr (List.mem_cons_of_mem _ (List.mem_cons_of_mem _ h2)))
      · exact ih (k + 1) hrest l' h
    | none =>
      rw [fixNumGo, hm] at hl'
      rcases List.mem_cons.mp hl' with rfl | h
      · exact hl
      · exact ih 1 hrest l' h

theorem fixNumGo_ne_nil {ls : List (List Char)} (h : ls ≠ []) (k : Nat) :
    fixNumGo k ls ≠ [] := by
  cases ls with
  | nil => exact absurd rfl h
  | cons l ls =>
    rw [fixNumGo]
    cases lineNumMatch l <;> exact List.cons_ne_nil _ _

/-- `fix_numbering` is idempotent at the character-list level. -/
theorem fixNumberingL_idem (cs : List Char) :
    fixNumberingL (fixNumberingL cs) = fixNumberingL cs := by
  unfold fixNumberingL
  rw [splitNL_joinNL _ (fixNumGo_ne_nil (splitNL_ne_nil cs) 1)
      (no_newline_fixNumGo _ 1 (no_newline_splitNL cs)),
    fixNumGo_idem]

theorem startsHttp_iff (cs : List Char) :
    startsHttp cs = true ↔ ∃ t, cs = 'h' :: 't' :: 't' :: 'p' :: t := by
  match cs with
  | [] => simp [startsHttp]
  | [a] => simp [startsHttp]
  | [a, b] => simp [startsHttp]
  | [a, b, c] => simp [startsHttp]
  | a :: b :: c :: d :: t =>
    simp only [startsHttp, Bool.and_eq_true, decide_eq_true_eq]
    constructor
    · rintro ⟨⟨⟨rfl, rfl⟩, rfl⟩, rfl⟩
      exact ⟨t, rfl⟩
    · rintro ⟨t', ht'⟩
      injection ht' with h1 h2
      injection h2 with h2 h3
      injection h3 with h3 h4
      injection h4 with h4 _
      exact ⟨⟨⟨h1, h2⟩, h3⟩, h4⟩

theorem noHttp_cons_iff (c : Char) (rest : List Char) :
    noHttpL (c :: rest) = true ↔
      startsHttp (c :: rest) = false ∧ noHttpL rest = true := by
  rw [noHttpL]
  simp [Bool.and_eq_true]

/-- URL-freeness passes to any suffix. -/
theorem noHttp_append_right {xs ys : List Char}
    (h : noHttpL (xs ++ ys) = true) : noHttpL ys = true := by
  induction xs with
  | nil => exact h
  | cons c xs ih =>
    rw [List.cons_append, noHttp_cons_iff] at h
    exact ih h.2

theorem startsHttp_append {xs : List Char} (b : List Char)
    (h : startsHttp xs = true) : startsHttp (xs ++ b) = true := by
  obtain ⟨t, rfl⟩ := (startsHttp_iff xs).mp h
  exact (startsHttp_iff _).mpr ⟨t ++ b, by simp⟩

/-- URL-freeness passes to any prefix. -/
theorem noHttp_append_left {xs b : List Char}
    (h : noHttpL (xs ++ b) = true) : noHttpL xs = true := by
  induction xs with
  | nil => rfl
  | cons c xs ih =>
    rw [List.cons_append, noHttp_cons_iff] at h
    rw [noHttp_cons_iff]
    refine ⟨?_, ih h.2⟩
    cases hs : startsHttp (c :: xs) with
    | false => rfl
    | true =>
      have := startsHttp_append b hs
      rw [List.cons_append] at this
      rw [this] at h
      cases h.1

/-- URL-freeness passes to any infix. -/
theorem noHttp_infix {cs l : List Char} (h : noHttpL cs = true)
    (hinf : l <:+: cs) : noHttpL l = true := by
  obtain ⟨s, t, hst⟩ := hinf
  rw [← hst, List.append_assoc] at h
  exact noHttp_append_left (noHttp_append_right h)

theorem startsHttp_false_of_ne_h {c : Char} (t : List Char) (h : ¬ c = 'h') :
    startsHttp (c :: t) = false := by
  cases hs : startsHttp (c :: t) with
  | false => rfl
  | true =>
    obtain ⟨t', ht'⟩ := (startsHttp_iff _).mp hs
    injection ht' with h1 _
    exact absurd h1 h

theorem noHttp_cons_of_ne_h {c : Char} (t : List Char) (h : ¬ c = 'h') :
    noHttpL (c :: t) = noHttpL t := by
  rw [noHttpL, startsHttp_false_of_ne_h t h]
  simp

/-- Prepending a run of digits preserves URL-freeness. -/
theorem noHttp_append_digits {xs ys : List Char}
    (hd : ∀ c ∈ xs, c.isDigit = true) (hy : noHttpL ys = true) :
    noHttpL (xs ++ ys) = true := by
  induction xs with
  | nil => exact hy
  | cons c xs ih =>
    have hc : ¬ c = 'h' := by
      intro hcc
      have := hd c (List.mem_cons_self c xs)
      rw [hcc] at this
      simp at this
    rw [List.cons_append, noHttp_cons_of_ne_h _ hc]
    exact ih (fun x hx => hd x (List.mem_cons_of_mem c hx))

/-- Joining URL-free pieces with a newline stays URL-free. -/
theorem noHttp_append_newline {xs ys : List Char} (hx : noHttpL xs = true)
    (hy : noHttpL ys = true) : noHttpL (xs ++ '\n' :: ys) = true := by
  induction xs with
  | nil =>
    rw [List.nil_append, noHttp_cons_of_ne_h _ (by decide)]
    exact hy
  | cons c xs ih =>
    rw [noHttp_cons_iff] at hx
    rw [List.cons_append, noHttp_cons_iff]
    refine ⟨?_, ih hx.2⟩
    cases hs : startsHttp (c :: (xs ++ '\n' :: ys)) with
    | false => rfl
    | true =>
      exfalso
      obtain ⟨t', ht'⟩ := (startsHttp_iff _).mp hs
      injection ht' with h1 h2
      match xs, hx with
      | [], hx =>
        injection h2 with h2 _
        exact absurd h2 (by decide)
      | [x1], hx =>
        injection h2 with h2 h3
        injection h3 with h3 _
        exact absurd h3 (by decide)
      | [x1, x2], hx =>
        injection h2 with h2 h3
        injection h3 with h3 h4
        injection h4 with h4 _
        exact absurd h4 (by decide)
      | x1 :: x2 :: x3 :: xs3, hx =>
        injection h2 with h2 h3
        injection h3 with h3 h4
        injection h4 with h4 _
        have : startsHttp (c :: x1 :: x2 :: x3 :: xs3) = true := by
          rw [startsHttp]
          simp [h1, h2, h3, h4]
        rw [this] at hx
        cases hx.1

theorem noHttp_joinNL :
    ∀ ls : List (List Char), (∀ l ∈ ls, noHttpL l = true) →
      noHttpL (joinNL ls) = true := by
  intro ls
  induction ls with
  | nil => intro _; rfl
  | cons l ls ih =>
    intro h
    cases ls with
    | nil => exact h l (List.mem_cons_self l _)
    | cons l2 ls2 =>
      rw [joinNL]
      exact noHttp_append_newline (h l (List.mem_cons_self l _))
        (ih (fun x hx => h x (List.mem_cons_of_mem l hx)))

/-- The renumbering pass keeps every line URL-free. -/
theorem noHttp_fixNumGo :
    ∀ (ls : List (List Char)) (k : Nat), (∀ l ∈ ls, noHttpL l = true) →
      ∀ l' ∈ fixNumGo k ls, noHttpL l' = true := by
  intro ls
  induction ls with
  | nil => intro k _ l' hl'; cases hl'
  | cons l ls ih =>
    intro k hnh l' hl'
    have hl : noHttpL l = true := hnh l (List.mem_cons_self l ls)
    have hrest : ∀ x ∈ ls, noHttpL x = true :=
      fun x hx => hnh x (List.mem_cons_of_mem l hx)
    cases hm : lineNumMatch l with
    | some rest =>
      rw [fixNumGo, hm] at hl'
      rcases List.mem_cons.mp hl' with rfl | h
      · have hsuff : noHttpL ('.' :: ' ' :: rest) = true := by
          have hdec := lineNumMatch_decomp hm
          rw [hdec] at hl
          exact noHttp_append_right hl
        exact noHttp_append_digits (natDecChars_digits k) hsuff
      · exact ih (k + 1) hrest l' h
    | none =>
      rw [fixNumGo, hm] at hl'
      rcases List.mem_cons.mp hl' with rfl | h
      · exact hl
      · exact ih 1 hrest l' h

/-- `fix_numbering` preserves URL-freeness. -/
theorem noHttp_fixNumberingL {cs : List Char} (h : noHttpL cs = true) :
    noHttpL (fixNumberingL cs) = true := by
  unfold fixNumberingL
  apply noHttp_joinNL
  apply noHttp_fixNumGo
  intro l hl
  have hinf : l <:+: cs := by
    have hjoin := joinNL_splitNL cs
    have hmem : l ∈ splitNL cs := hl
    clear hl
    rw [← hjoin]
    clear hjoin
    generalize splitNL cs = ls at hmem
    induction ls with
    | nil => cases hmem
    | cons x xs ihm =>
      rcases List.mem_cons.mp hmem with rfl | hmem'
      · cases xs with
        | nil => exact List.infix_refl l
        | cons x2 xs2 =>
          rw [joinNL]
          exact ⟨[], '\n' :: joinNL (x2 :: xs2), by simp⟩
      · cases xs with
        | nil => cases hmem'
        | cons x2 xs2 =>
          obtain ⟨s, t, hst⟩ := ihm hmem'
          rw [joinNL, ← hst]
          exact ⟨x ++ '\n' :: s, t, by simp⟩
  exact noHttp_infix h hinf

/-- A text not beginning with `http` cannot match the URL pattern. -/
theorem tryUrl_none_of_not_startsHttp {cs : List Char}
    (h : startsHttp cs = false) : tryUrl cs = none := by
  unfold tryUrl
  split
  · exfalso
    simp [startsHttp] at h
  · rfl

/-- The URL substitution is the identity on URL-free text. -/
theorem urlSubGo_id :
    ∀ (fuel : Nat) (prev cs : List Char), noHttpL cs = true →
      urlSubGo fuel prev cs = cs := by
  intro fuel
  induction fuel with
  | zero => intro prev cs _; rfl
  | succ fuel ih =>
    intro prev cs h
    cases cs with
    | nil => rfl
    | cons c rest =>
      rw [noHttp_cons_iff] at h
      rw [urlSubGo, tryUrl_none_of_not_startsHttp h.1]
      rw [ih (c :: prev) rest h.2]

theorem urlSubL_id {cs : List Char} (h : noHttpL cs = true) : urlSubL cs = cs :=
  urlSubGo_id cs.length [] cs h

/-- C7 counterexample: `format_links_as_markdown` is not idempotent — on
`"http://x"` the second application re-wraps the already-wrapped link,
because the look-behinds do not exclude a URL preceded by `[`. -/
theorem format_links_not_idempotent :
    format_links_as_markdown (format_links_as_markdown "http://x") ≠
      format_links_as_markdown "http://x" := by
  decide

/-- C7 amended: `format_links_as_markdown` is idempotent on every string
containing no occurrence of `http` (in particular no URL); on strings
containing a URL a second application can re-wrap the link. -/
theorem format_links_idempotent_on_url_free (s : String)
    (h : noHttpL s.data = true) :
    format_links_as_markdown (format_links_as_markdown s) =
      format_links_as_markdown s := by
  unfold format_links_as_markdown convert_testrail_tables_to_markdown
  have hy : noHttpL (fixNumberingL s.data) = true := noHttp_fixNumberingL h
  rw [urlSubL_id hy]
  show String.mk (urlSubL (fixNumberingL (fixNumberingL s.data))) = _
  rw [fixNumberingL_idem, urlSubL_id hy]

/-- Witness for C7's amended theorem on a URL-free string with numbered
lines. -/
theorem format_links_idempotent_on_url_free_witness :
    format_links_as_markdown (format_links_as_markdown "0. go\n0. stop\nend") =
      format_links_as_markdown "0. go\n0. stop\nend" :=
  format_links_idempotent_on_url_free "0. go\n0. stop\nend" (by decide)

/-- Witness for C9's amended theorem at `enable = true`, no existing
fields. -/
theorem refs_field_enable_gate_and_shape_witness :
    create_refs_field true [] ≠ RefsAction.nothing ∧
    refsFieldData.is_enabled_for_all_projects = true ∧ refsFieldData.type = 2 ∧
    lookupA qase_fields_type "text" = some 2 :=
  ⟨fun h => absurd ((refs_field_enable_gate_and_shape true []).1.mp h) (by decide),
   (refs_field_enable_gate_and_shape true []).2 refsFieldData (by decide)⟩

end TQMig
